import Mathlib

/-!
Verification of the selection-and-assembly logic of a YouTube subtitle
downloader (a single-file Streamlit application, `app.py`).

The development shallowly embeds the pure parts of the program:
* `clean_filename` — the filename sanitizer (`re.sub(r'[\\/*?:"<>|]', "", title)`);
* `srt_to_text` — the timed-text stripper (decode, tag removal, line
  filtering, join, encode), modelled at the byte level;
* `get_video_info` — the caption-catalog builder over an abstract
  metadata collaborator (`yt_dlp.extract_info` becomes a function
  `String → Except String RawInfo`);
* the "Process Subtitles" handler (`processFiles` / `runPipeline`) and the
  download-button assembly (`deliver`);
* the Streamlit session state and its invalidation callbacks.

Machine/byte-level data is `List Nat`; Python strings are `String` /
`List Char`.
-/

/-! ## Character predicates (Python `str` semantics) -/

/-- Python whitespace, as stripped by `str.strip()`: the characters for which
`str.isspace()` holds (ASCII whitespace, the C1 controls `\x1c`–`\x1f`,
NEL, NBSP and the Unicode space separators). -/
def pyIsSpace (c : Char) : Bool :=
  c.toNat ∈ [9, 10, 11, 12, 13, 28, 29, 30, 31, 32, 0x85, 0xa0, 0x1680,
    0x2000, 0x2001, 0x2002, 0x2003, 0x2004, 0x2005, 0x2006, 0x2007, 0x2008,
    0x2009, 0x200a, 0x2028, 0x2029, 0x202f, 0x205f, 0x3000]

/-- Line boundaries recognised by Python `str.splitlines()` (besides the
`"\r\n"` pair, which is handled in `pySplitlines` itself). -/
def isLineBoundary (c : Char) : Bool :=
  c.toNat ∈ [10, 11, 12, 13, 28, 29, 30, 0x85, 0x2028, 0x2029]

/-- The nine characters removed by `clean_filename`:  `\ / * ? : " < > |`. -/
def badFileChars : List Char := ['\\', '/', '*', '?', ':', '"', '<', '>', '|']

/-! ## Filename Sanitizer — `clean_filename` (app.py lines 69–71)

`re.sub(r'[\\/*?:"<>|]', "", title)` deletes every occurrence of a character
of the class and keeps everything else: on the character list this is
exactly a `filter`. -/

/-- `clean_filename(title)`: removes only the characters that break
Windows/Mac file systems. -/
def clean_filename (title : String) : String :=
  ⟨title.data.filter (fun c => decide (c ∉ badFileChars))⟩

/-! ## Session State (app.py lines 97–111 and 73–75) -/

/-- The fields of `st.session_state` used by the program.  `video_info` is
kept abstract here (its construction is verified separately on
`get_video_info`); `processed_files` is the list of (final name, bytes)
pairs. -/
structure AppState (Info : Type) where
  video_info : Option Info
  last_url : String
  processed_files : Option (List (String × List Nat))

/-- Lines 108–111: on every rerun, if the text-input url differs from
`st.session_state.last_url`, both `video_info` and `processed_files` are
set to `None` and `last_url` is updated. -/
def urlSync {Info : Type} (s : AppState Info) (url : String) : AppState Info :=
  if url ≠ s.last_url then
    { video_info := none, processed_files := none, last_url := url }
  else s

/-- Lines 73–75: `clear_processed_cache`, the `on_change` callback of the
format radio, the select-all checkbox and the language multiselect. -/
def clear_processed_cache {Info : Type} (s : AppState Info) : AppState Info :=
  { s with processed_files := none }

/-! ## Caption Catalog Builder — `get_video_info` (app.py lines 37–67)

The metadata collaborator (`yt_dlp.YoutubeDL(...).extract_info`) is
abstracted as a function `String → Except String RawInfo`: it either raises
(an exception with a diagnostic string, caught by the bare
`except Exception`) or returns the info dictionary. -/

/-- The fields of the `extract_info` result dictionary read by
`get_video_info`.  The caption dictionaries are association lists from
language code to the first track's optional `name` field
(`tracks[0].get('name', lang)`); Python dicts iterate in insertion order
and have unique keys. -/
structure RawInfo where
  id : Option String
  title : Option String
  uploader : Option String
  duration : Option Nat
  thumbnail : Option String
  subtitles : List (String × Option String)
  automatic_captions : List (String × Option String)

/-- The dictionary returned by `get_video_info`. -/
structure VideoInfo where
  id : Option String
  title : String
  channel : String
  duration : Nat
  thumbnail : Option String
  available_subs : List (String × String)

/-- Label of a manual track: `"{name} ({code})"` with
`name = tracks[0].get('name', lang)`. -/
def manualLabel (p : String × Option String) : String :=
  (p.2.getD p.1) ++ " (" ++ p.1 ++ ")"

/-- Label of an auto-generated track: `"{name} ({code}) [Auto-generated]"`. -/
def autoLabel (p : String × Option String) : String :=
  (p.2.getD p.1) ++ " (" ++ p.1 ++ ") [Auto-generated]"

/-- Python dict assignment `d[k] = v` on an insertion-ordered association
list: an existing key keeps its position and gets the new value, a fresh
key is appended. -/
def dictInsert (d : List (String × String)) (k v : String) : List (String × String) :=
  if d.any (fun p => decide (p.1 = k)) then
    d.map (fun p => if p.1 = k then (k, v) else p)
  else d ++ [(k, v)]

/-- The `subs` dictionary built by `get_video_info` (lines 44–56): insert
`label ↦ lang` for every manual track, then for every auto-generated track
whose language code is not yet among the values (`lang not in
subs.values()`) insert its auto label. -/
def buildSubs (manual auto : List (String × Option String)) : List (String × String) :=
  let subs := manual.foldl (fun d p => dictInsert d (manualLabel p) p.1) []
  auto.foldl
    (fun d p => if p.1 ∈ d.map Prod.snd then d else dictInsert d (autoLabel p) p.1)
    subs

/-- `get_video_info(url)` (lines 37–67): query the collaborator; on any
exception return `None`; otherwise assemble the metadata dictionary with
the deduplicated caption catalog. -/
def get_video_info (url : String) (extract_info : String → Except String RawInfo) :
    Option VideoInfo :=
  match extract_info url with
  | Except.error _ => none
  | Except.ok info => some
      { id := info.id
        title := info.title.getD "Unknown_Title"
        channel := info.uploader.getD "Unknown Channel"
        duration := info.duration.getD 0
        thumbnail := info.thumbnail
        available_subs := buildSubs info.subtitles info.automatic_captions }

/-- Characters a YouTube video identifier may contain. -/
def specIdChar (c : Char) : Bool := c.isAlphanum || c = '_' || c = '-'

/-- Modelled from the spec: the claimed URL-side resolution of the canonical
video identifier — "an 11-character token immediately following `v=`, a path
separator, or `youtu.be/`" (`youtu.be/` ends in a path separator and is
subsumed by the `/` case).  No such extraction exists in `src/app.py`; this
definition follows the spec's words so that the claimed preference can be
compared with what `get_video_info` actually returns. -/
def specTokenScan : List Char → Option (List Char)
  | 'v' :: '=' :: rest =>
      if (rest.take 11).length = 11 && (rest.take 11).all specIdChar then
        some (rest.take 11)
      else specTokenScan rest
  | '/' :: rest =>
      if (rest.take 11).length = 11 && (rest.take 11).all specIdChar then
        some (rest.take 11)
      else specTokenScan rest
  | _ :: rest => specTokenScan rest
  | [] => none

/-- Modelled from the spec: string wrapper of `specTokenScan`. -/
def specPreferredUrlToken (url : String) : Option String :=
  (specTokenScan url.data).map (fun l => ⟨l⟩)

/-! ## Timed-Text Stripper — `srt_to_text` (app.py lines 77–95)

`srt_to_text(srt_bytes)` is
`'\n'.join(clean lines of re.sub(r'<[^>]+>', '', srt_bytes.decode('utf-8',
errors='ignore')).splitlines()).encode('utf-8')` where a line survives when
its `strip()` is non-empty, not all digits, and does not contain `-->`.
Each stage is embedded below on `List Char` / `List Nat`. -/

/-- Split a character list at the first `'>'`:
`splitFirstGt s = some (before, after)` with `s = before ++ '>' :: after`
and no `'>'` in `before`, or `none` when `s` has no `'>'`. -/
def splitFirstGt : List Char → Option (List Char × List Char)
  | [] => none
  | c :: t =>
      if c = '>' then some ([], t)
      else match splitFirstGt t with
        | none => none
        | some (b, a) => some (c :: b, a)

/-- One right-to-left pass computing, for every suffix, the result of
`re.sub(r'<[^>]+>', '', ·)` together with the `re.sub` result of the part
after the suffix's first `'>'` (if any).  The regular expression scans left
to right; at a `'<'` it greedily matches `[^>]+` up to the next `'>'`
(note `[^>]` also matches newlines), so a match at `'<'` exists exactly
when the next `'>'` is not immediately adjacent.  Keeping the second
component makes the definition structurally recursive. -/
def gTag : List Char → List Char × Option (List Char)
  | [] => ([], none)
  | c :: rest =>
      let r := gTag rest
      if c = '>' then ('>' :: r.1, some r.1)
      else if c = '<' then
        match r.2 with
        | none => ('<' :: r.1, none)
        | some tailRes =>
            if rest.head? = some '>' then ('<' :: r.1, r.2) else (tailRes, r.2)
      else (c :: r.1, r.2)

/-- `re.sub(r'<[^>]+>', '', text)` — delete every inline markup tag. -/
def tagRemove (s : List Char) : List Char := (gTag s).1

/-- Scanning invariant of tag removal: `nmx s g = true` says that every
`'<'` in `s` is either immediately followed by `'>'` or sees no `'>'`
anywhere after it — neither in `s` itself nor in the continuation after
`s` when `g = true` (`g` records whether a `'>'` occurs after `s`).
`re.sub(r'<[^>]+>', '', ·)` leaves exactly such strings unchanged, and its
output always satisfies the invariant (`g = false`): these two facts drive
the idempotence proof of the stripper. -/
def nmx : List Char → Bool → Bool
  | [], _ => true
  | c :: t, g =>
      (if c = '<' then decide (t.head? = some '>') || (!decide ('>' ∈ t) && !g) else true)
        && nmx t g

/-- Python `str.splitlines()`: split at every line-boundary character,
treating the pair `"\r\n"` as a single boundary; no trailing empty line
for a trailing boundary. -/
def pySplitlines : List Char → List (List Char)
  | [] => []
  | '\r' :: '\n' :: rest => [] :: pySplitlines rest
  | c :: rest =>
      if isLineBoundary c then [] :: pySplitlines rest
      else
        match pySplitlines rest with
        | [] => [[c]]
        | l :: ls => (c :: l) :: ls

/-- Python `str.strip()` with no argument: drop leading whitespace. -/
def stripLeft (l : List Char) : List Char := l.dropWhile pyIsSpace

/-- Python `str.strip()`: drop trailing whitespace. -/
def stripRight (l : List Char) : List Char := (l.reverse.dropWhile pyIsSpace).reverse

/-- Python `line.strip()`. -/
def pyStrip (l : List Char) : List Char := stripRight (stripLeft l)

/-- Python `stripped.isdigit()` for the stripped line (here restricted to
the ASCII decimal digits; Python additionally accepts other Unicode
decimal-digit characters, which changes only *which* lines count as
sequence numbers, not the structure of the algorithm). -/
def isDigitLine (l : List Char) : Bool := !l.isEmpty && l.all Char.isDigit

/-- Python `'-->' in stripped`. -/
def hasArrow : List Char → Bool
  | '-' :: '-' :: '>' :: _ => true
  | _ :: t => hasArrow t
  | [] => false

/-- The filtering of lines 85–93: keep a stripped line when it is non-empty
(`if not stripped: continue`), not a pure sequence number
(`stripped.isdigit()`), and not a timestamp line (`'-->' in stripped`). -/
def keepLine (l : List Char) : Bool := !l.isEmpty && !isDigitLine l && !hasArrow l

/-- The loop of lines 84–93: strip each line, keep the survivors. -/
def processLines (lines : List (List Char)) : List (List Char) :=
  (lines.map pyStrip).filter keepLine

/-- Python `'\n'.join(clean_lines)`. -/
def joinNL : List (List Char) → List Char
  | [] => []
  | l :: ls => if ls.isEmpty then l else l ++ '\n' :: joinNL ls

/-- The text-level core of `srt_to_text`: tag removal, split into lines,
strip/filter, join. -/
def srtCore (text : List Char) : List Char :=
  joinNL (processLines (pySplitlines (tagRemove text)))

/-! ### UTF-8 (Python `bytes.decode('utf-8', errors='ignore')` /
`str.encode('utf-8')`) -/

/-- UTF-8 encoding of the scalar value `n`. -/
def utf8EncodeNat (n : Nat) : List Nat :=
  if n < 0x80 then [n]
  else if n < 0x800 then [0xC0 + n / 64, 0x80 + n % 64]
  else if n < 0x10000 then
    [0xE0 + n / 4096, 0x80 + (n / 64) % 64, 0x80 + n % 64]
  else
    [0xF0 + n / 262144, 0x80 + (n / 4096) % 64, 0x80 + (n / 64) % 64, 0x80 + n % 64]

/-- UTF-8 encoding of one character. -/
def utf8EncodeChar (c : Char) : List Nat := utf8EncodeNat c.toNat

/-- `str.encode('utf-8')`. -/
def utf8Encode (s : List Char) : List Nat := s.flatMap utf8EncodeChar

/-- State of the UTF-8 decoding automaton: either at a sequence start, or
expecting `k` more continuation bytes, where the next byte must lie in
`[lo, hi]` (the restricted first-continuation ranges exclude overlong
encodings and surrogates, as Python's decoder does) and `val` is the
scalar value accumulated so far. -/
inductive DecState where
  | start : DecState
  | expect : Nat → Nat → Nat → Nat → DecState

/-- Classification of a byte at a sequence start: ASCII bytes are emitted,
lead bytes open a multi-byte sequence, anything else is dropped
(`errors='ignore'`). -/
def classifyByte (b : Nat) : DecState × List Char :=
  if b < 0x80 then (DecState.start, [Char.ofNat b])
  else if b < 0xC2 then (DecState.start, [])
  else if b ≤ 0xDF then (DecState.expect 1 0x80 0xBF (b - 0xC0), [])
  else if b ≤ 0xEF then
    (DecState.expect 2 (if b = 0xE0 then 0xA0 else 0x80)
      (if b = 0xED then 0x9F else 0xBF) (b - 0xE0), [])
  else if b ≤ 0xF4 then
    (DecState.expect 3 (if b = 0xF0 then 0x90 else 0x80)
      (if b = 0xF4 then 0x8F else 0xBF) (b - 0xF0), [])
  else (DecState.start, [])

/-- One step of the decoding automaton.  A byte outside the expected
continuation range makes the pending (malformed) sequence be dropped and
the byte re-examined as a sequence start. -/
def stepDec : DecState → Nat → DecState × List Char
  | DecState.start, b => classifyByte b
  | DecState.expect k lo hi val, b =>
      if lo ≤ b && b ≤ hi then
        if k = 1 then (DecState.start, [Char.ofNat (val * 64 + (b - 0x80))])
        else (DecState.expect (k - 1) 0x80 0xBF (val * 64 + (b - 0x80)), [])
      else classifyByte b

/-- Run the decoding automaton; a pending incomplete sequence at end of
input is dropped. -/
def decGo : DecState → List Nat → List Char
  | _, [] => []
  | st, b :: bs => (stepDec st b).2 ++ decGo (stepDec st b).1 bs

/-- `bytes.decode('utf-8', errors='ignore')`: well-formed sequences decode
to their scalar value, malformed bytes are dropped and decoding resumes. -/
def utf8DecodeIgnore (bs : List Nat) : List Char := decGo DecState.start bs

/-- `srt_to_text(srt_bytes)` (lines 77–95), bytes to bytes. -/
def srt_to_text (srt_bytes : List Nat) : List Nat :=
  utf8Encode (srtCore (utf8DecodeIgnore srt_bytes))

/-! ## Selection & Assembly Pipeline — "Process Subtitles" handler and
download buttons (app.py lines 168–259) -/

/-- The three entries of the format radio button ("SRT (SubRip -
Recommended)", "Raw (VTT - Original)", "Text Only (No Timestamps)"). -/
inductive FormatChoice where
  | srt : FormatChoice
  | rawVtt : FormatChoice
  | textOnly : FormatChoice
deriving DecidableEq

/-- Lines 186–193: the extension of the files requested from the
collaborator — `.vtt` for the raw format, `.srt` otherwise (SRT and Text
both fetch SRT, converted by FFmpeg). -/
def target_ext : FormatChoice → String
  | FormatChoice.rawVtt => ".vtt"
  | _ => ".srt"

/-- Lines 210–216: the delivered file extension. -/
def final_ext : FormatChoice → String
  | FormatChoice.srt => "srt"
  | FormatChoice.rawVtt => "vtt"
  | FormatChoice.textOnly => "txt"

/-- A file found in the temporary directory after the collaborator ran:
its on-disk name and content bytes (`os.listdir` order). -/
structure RawSubFile where
  name : String
  data : List Nat
deriving DecidableEq

/-- Python `file.split('.')`. -/
def splitOnDot : List Char → List (List Char)
  | [] => [[]]
  | '.' :: rest => [] :: splitOnDot rest
  | c :: rest =>
      match splitOnDot rest with
      | [] => [[c]]
      | p :: ps => (c :: p) :: ps

/-- Python `s.endswith(suffix)`. -/
def strEndsWith (s suffix : String) : Bool :=
  List.isPrefixOf suffix.data.reverse s.data.reverse

/-- Lines 205–207: `parts = file.split('.')`;
`lang_code = parts[-2] if len(parts) >= 3 else "sub"`. -/
def lang_code_of (file : String) : String :=
  let parts := (splitOnDot file.data).map (fun l => String.mk l)
  if parts.length ≥ 3 then parts.getD (parts.length - 2) "" else "sub"

/-- Lines 209–216: per-format content transformation — the text-only format
applies the stripper to the fetched SRT bytes, the others deliver the bytes
unchanged. -/
def transData (fc : FormatChoice) (data : List Nat) : List Nat :=
  if fc = FormatChoice.textOnly then srt_to_text data else data

/-- Lines 218–224: the final file name — `"{safe_title}.{ext}"` when
exactly one *language is selected* (`len(selected_langs) == 1`),
`"{safe_title} [{lang_code}].{ext}"` otherwise. -/
def finalName (fc : FormatChoice) (selected_langs : List String) (safe_title : String)
    (file : String) : String :=
  if selected_langs.length = 1 then safe_title ++ "." ++ final_ext fc
  else safe_title ++ " [" ++ lang_code_of file ++ "]." ++ final_ext fc

/-- Lines 199–224: the collection loop over the temporary directory —
every file with the target extension is read, transformed, named, and
accumulated in listing order. -/
def processFiles (fc : FormatChoice) (selected_langs : List String) (safe_title : String)
    (files : List RawSubFile) : List (String × List Nat) :=
  (files.filter (fun f => strEndsWith f.name (target_ext fc))).map
    (fun f => (finalName fc selected_langs safe_title f.name, transData fc f.data))

/-- Outcome of one press of "Process Subtitles". -/
inductive RunOutcome where
  | error : String → RunOutcome
  | success : List (String × List Nat) → RunOutcome
deriving DecidableEq

/-- The diagnostic of line 227, shown when no file at all was produced. -/
def totalFailureMsg : String :=
  "Failed to extract subtitles. If choosing SRT/Text, ensure FFmpeg is installed."

/-- Lines 170–232: the whole handler.  The collaborator call
(`ydl.download([url])`) either raises — caught by the `except` of
line 231 — or leaves a list of files in the temporary directory. -/
def runPipeline (fc : FormatChoice) (selected_langs : List String) (title : String)
    (download : Except String (List RawSubFile)) : RunOutcome :=
  match download with
  | Except.error e => RunOutcome.error ("Error processing subtitles: " ++ e)
  | Except.ok files =>
      let processed := processFiles fc selected_langs (clean_filename title) files
      if processed.isEmpty then RunOutcome.error totalFailureMsg
      else RunOutcome.success processed

/-- Line 169: the Process button — and hence the pipeline — is only
reachable when the language selection is non-empty; an empty selection
produces no run and no diagnostic. -/
def gateRun (fc : FormatChoice) (selected_langs : List String) (title : String)
    (download : Except String (List RawSubFile)) : Option RunOutcome :=
  if selected_langs.isEmpty then none
  else some (runPipeline fc selected_langs title download)

/-- Zip compression method (`zipfile.ZIP_DEFLATED` at line 250). -/
inductive CompressionMethod where
  | stored : CompressionMethod
  | deflated : CompressionMethod
deriving DecidableEq

/-- The delivery artifact of lines 240–259: a single file standalone, or
one compressed archive. -/
inductive Delivery where
  | standalone : String → List Nat → String → Delivery
  | archive : String → CompressionMethod → List (String × List Nat) → String → Delivery
deriving DecidableEq

/-- Lines 235–259: the download-button assembly over the session's
non-empty `processed_files`: exactly one file is offered standalone under
its own name with MIME `text/plain`; otherwise all files are written, in
order, into one deflate-compressed archive named
`"{safe_title}_Subtitles.zip"` with MIME `application/zip`. -/
def deliver (title : String) (processed_files : List (String × List Nat)) : Delivery :=
  match processed_files with
  | [single] => Delivery.standalone single.1 single.2 "text/plain"
  | files =>
      Delivery.archive (clean_filename title ++ "_Subtitles.zip")
        CompressionMethod.deflated files "application/zip"

/-! ### Catalog characterization -/

theorem dictInsert_fresh (d : List (String × String)) (k v : String)
    (h : k ∉ d.map Prod.fst) : dictInsert d k v = d ++ [(k, v)] := by
  have hany : d.any (fun p => decide (p.1 = k)) = false := by
    rw [List.any_eq_false]
    intro p hp
    simp only [decide_eq_true_eq]
    intro hk
    exact h (List.mem_map.mpr ⟨p, hp, hk⟩)
  simp [dictInsert, hany]

theorem foldl_manual_eq (manual : List (String × Option String)) :
    ∀ d : List (String × String), (manual.map manualLabel).Nodup →
    (∀ p ∈ manual, manualLabel p ∉ d.map Prod.fst) →
    manual.foldl (fun d p => dictInsert d (manualLabel p) p.1) d
      = d ++ manual.map (fun p => (manualLabel p, p.1)) := by
  induction manual with
  | nil => intro d _ _; simp
  | cons p rest ih =>
    intro d hnd hfresh
    rw [List.map_cons, List.nodup_cons] at hnd
    obtain ⟨hnd1, hnd2⟩ := hnd
    have hstep : dictInsert d (manualLabel p) p.1 = d ++ [(manualLabel p, p.1)] :=
      dictInsert_fresh _ _ _ (hfresh p (List.mem_cons_self _ _))
    have hfresh' : ∀ q ∈ rest, manualLabel q ∉ (d ++ [(manualLabel p, p.1)]).map Prod.fst := by
      intro q hq
      simp only [List.map_append, List.mem_append, List.map_cons, List.map_nil,
        List.mem_singleton, not_or]
      refine ⟨hfresh q (List.mem_cons_of_mem _ hq), ?_⟩
      intro hEq
      exact hnd1 (hEq ▸ List.mem_map_of_mem manualLabel hq)
    calc (p :: rest).foldl (fun d p => dictInsert d (manualLabel p) p.1) d
        = rest.foldl (fun d p => dictInsert d (manualLabel p) p.1)
            (d ++ [(manualLabel p, p.1)]) := by rw [List.foldl_cons, hstep]
      _ = (d ++ [(manualLabel p, p.1)]) ++ rest.map (fun p => (manualLabel p, p.1)) :=
            ih _ hnd2 hfresh'
      _ = d ++ (p :: rest).map (fun p => (manualLabel p, p.1)) := by simp

theorem foldl_auto_eq (auto : List (String × Option String)) :
    ∀ d : List (String × String), (auto.map Prod.fst).Nodup →
    (auto.map autoLabel).Nodup →
    (∀ p ∈ auto, autoLabel p ∉ d.map Prod.fst) →
    auto.foldl (fun d p => if p.1 ∈ d.map Prod.snd then d else dictInsert d (autoLabel p) p.1) d
      = d ++ (auto.filter (fun p => decide (p.1 ∉ d.map Prod.snd))).map
          (fun p => (autoLabel p, p.1)) := by
  induction auto with
  | nil => intro d _ _ _; simp
  | cons p rest ih =>
    intro d hkey hlab hfresh
    rw [List.map_cons, List.nodup_cons] at hkey hlab
    obtain ⟨hkey1, hkey'⟩ := hkey
    obtain ⟨hlab1, hlab'⟩ := hlab
    by_cases hmem : p.1 ∈ d.map Prod.snd
    · have hfilter :
          (p :: rest).filter (fun p => decide (p.1 ∉ d.map Prod.snd))
            = rest.filter (fun p => decide (p.1 ∉ d.map Prod.snd)) := by
        rw [List.filter_cons_of_neg]
        simpa using hmem
      rw [List.foldl_cons, if_pos hmem, hfilter]
      exact ih d hkey' hlab' (fun q hq => hfresh q (List.mem_cons_of_mem _ hq))
    · have hstep : dictInsert d (autoLabel p) p.1 = d ++ [(autoLabel p, p.1)] :=
        dictInsert_fresh _ _ _ (hfresh p (List.mem_cons_self _ _))
      have hfresh' : ∀ q ∈ rest, autoLabel q ∉ (d ++ [(autoLabel p, p.1)]).map Prod.fst := by
        intro q hq
        simp only [List.map_append, List.mem_append, List.map_cons, List.map_nil,
          List.mem_singleton, not_or]
        refine ⟨hfresh q (List.mem_cons_of_mem _ hq), ?_⟩
        intro hEq
        exact hlab1 (hEq ▸ List.mem_map_of_mem autoLabel hq)
      have hkeyp : ∀ q ∈ rest, q.1 ≠ p.1 := by
        intro q hq hEq
        exact hkey1 (hEq ▸ List.mem_map_of_mem Prod.fst hq)
      have hfilter :
          rest.filter (fun q => decide (q.1 ∉ (d ++ [(autoLabel p, p.1)]).map Prod.snd))
            = rest.filter (fun q => decide (q.1 ∉ d.map Prod.snd)) := by
        apply List.filter_congr
        intro q hq
        simp only [List.map_append, List.mem_append, List.map_cons, List.map_nil,
          List.mem_singleton, decide_eq_decide, not_or]
        have := hkeyp q hq
        tauto
      rw [List.foldl_cons, if_neg hmem, hstep, ih _ hkey' hlab' hfresh', hfilter,
        List.filter_cons_of_pos (by simpa using hmem)]
      simp

theorem buildSubs_eq (manual auto : List (String × Option String))
    (hA : (auto.map Prod.fst).Nodup)
    (hL : ((manual.map manualLabel) ++ (auto.map autoLabel)).Nodup) :
    buildSubs manual auto
      = manual.map (fun p => (manualLabel p, p.1))
        ++ (auto.filter (fun p => decide (p.1 ∉ manual.map Prod.fst))).map
            (fun p => (autoLabel p, p.1)) := by
  obtain ⟨hM, hAlab, hdisj⟩ := List.nodup_append.mp hL
  have hsubs : manual.foldl (fun d p => dictInsert d (manualLabel p) p.1) []
      = manual.map (fun p => (manualLabel p, p.1)) := by
    simpa using foldl_manual_eq manual [] hM (by simp)
  have hvals : (manual.map (fun p => (manualLabel p, p.1))).map Prod.snd
      = manual.map Prod.fst := by
    simp [List.map_map]
  have hkeysM : (manual.map (fun p => (manualLabel p, p.1))).map Prod.fst
      = manual.map manualLabel := by
    simp [List.map_map]
  have hfresh : ∀ p ∈ auto,
      autoLabel p ∉ (manual.map (fun p => (manualLabel p, p.1))).map Prod.fst := by
    intro p hp
    rw [hkeysM]
    intro hmem
    exact hdisj hmem (List.mem_map_of_mem autoLabel hp)
  unfold buildSubs
  rw [hsubs, foldl_auto_eq auto _ hA hAlab hfresh]
  congr 2
  apply List.filter_congr
  intro q hq
  rw [hvals]

/-! ### Tag removal: equations and invariants -/

/-- Strong induction on list length. -/
theorem list_length_induction {α : Type} (P : List α → Prop)
    (h : ∀ s, (∀ t : List α, t.length < s.length → P t) → P s) : ∀ s, P s := by
  intro s
  have key : ∀ n, ∀ s : List α, s.length < n → P s := by
    intro n
    induction n with
    | zero => intro s hs; exact absurd hs (by omega)
    | succ n ih => intro s hs; exact h s (fun t ht => ih t (by omega))
  exact key (s.length + 1) s (by omega)

theorem splitFirstGt_cons (c : Char) (t : List Char) :
    splitFirstGt (c :: t)
      = if c = '>' then some ([], t)
        else
          match splitFirstGt t with
          | none => none
          | some (b, a) => some (c :: b, a) := rfl

theorem splitFirstGt_eq : ∀ {s b a : List Char},
    splitFirstGt s = some (b, a) → s = b ++ '>' :: a ∧ '>' ∉ b := by
  intro s
  induction s with
  | nil => intro b a h; simp [splitFirstGt] at h
  | cons c t ih =>
    intro b a h
    by_cases hc : c = '>'
    · subst hc
      rw [splitFirstGt_cons, if_pos rfl] at h
      simp only [Option.some.injEq, Prod.mk.injEq] at h
      obtain ⟨hb, ha⟩ := h
      subst hb; subst ha
      simp
    · rw [splitFirstGt_cons, if_neg hc] at h
      cases hsp : splitFirstGt t with
      | none => rw [hsp] at h; exact Option.noConfusion h
      | some p =>
        obtain ⟨b', a'⟩ := p
        rw [hsp] at h
        simp only [Option.some.injEq, Prod.mk.injEq] at h
        obtain ⟨hb, ha⟩ := h
        obtain ⟨ht, hnb⟩ := ih hsp
        subst hb; subst ha
        constructor
        · rw [ht]; simp
        · simp only [List.mem_cons, not_or]
          exact ⟨fun hEq => hc hEq.symm, hnb⟩

theorem splitFirstGt_none : ∀ {s : List Char}, splitFirstGt s = none → '>' ∉ s := by
  intro s
  induction s with
  | nil => intro _ h; simp at h
  | cons c t ih =>
    intro h hmem
    by_cases hc : c = '>'
    · subst hc; simp [splitFirstGt] at h
    · simp only [splitFirstGt, if_neg hc] at h
      cases hsp : splitFirstGt t with
      | none =>
        rcases List.mem_cons.mp hmem with hEq | hmem'
        · exact hc hEq.symm
        · exact ih hsp hmem'
      | some p => rw [hsp] at h; simp at h

theorem gTag_snd : ∀ s : List Char,
    (gTag s).2 = (splitFirstGt s).map (fun p => (gTag p.2).1) := by
  intro s
  induction s with
  | nil => rfl
  | cons c t ih =>
    by_cases hgt : c = '>'
    · subst hgt; simp [gTag, splitFirstGt]
    · by_cases hlt : c = '<'
      · subst hlt
        simp only [gTag, if_neg (by decide : ¬('<' : Char) = '>'), if_pos rfl]
        rw [ih]
        cases hsp : splitFirstGt t with
        | none => simp [splitFirstGt, hsp]
        | some p =>
          obtain ⟨b, a⟩ := p
          by_cases hh : t.head? = some '>'
          · simp [splitFirstGt, hsp, hh]
          · simp [splitFirstGt, hsp, hh]
      · simp only [gTag, if_neg hgt, if_neg hlt]
        rw [ih]
        cases hsp : splitFirstGt t with
        | none => simp [splitFirstGt, hsp, hgt]
        | some p => obtain ⟨b, a⟩ := p; simp [splitFirstGt, hsp, hgt]

theorem tagRemove_nil : tagRemove [] = [] := rfl

theorem tagRemove_cons (c : Char) (rest : List Char) :
    tagRemove (c :: rest)
      = if c = '<' then
          match splitFirstGt rest with
          | none => '<' :: tagRemove rest
          | some (b, a) => if b = [] then '<' :: tagRemove rest else tagRemove a
        else c :: tagRemove rest := by
  by_cases hlt : c = '<'
  · subst hlt
    rw [if_pos rfl]
    show (gTag ('<' :: rest)).1 = _
    simp only [gTag, if_neg (by decide : ¬('<' : Char) = '>'), if_pos rfl]
    rw [gTag_snd]
    cases hsp : splitFirstGt rest with
    | none => rfl
    | some p =>
      obtain ⟨b, a⟩ := p
      obtain ⟨hrest, hnb⟩ := splitFirstGt_eq hsp
      by_cases hb : b = []
      · subst hb
        have hh : rest.head? = some '>' := by rw [hrest]; rfl
        simp [hh, tagRemove]
      · obtain ⟨x, b', rfl⟩ := List.exists_cons_of_ne_nil hb
        have hx : x ≠ '>' := fun hEq => hnb (hEq ▸ List.mem_cons_self _ _)
        have hh : rest.head? ≠ some '>' := by
          rw [hrest]
          exact fun hEq => hx (Option.some.inj hEq)
        simp [hh, hb, tagRemove]
  · by_cases hgt : c = '>' <;>
      simp only [tagRemove, gTag, if_neg hlt, hgt, if_pos, if_neg, if_true, if_false] <;>
      simp [hgt, hlt]

theorem tagRemove_cons_ne (c : Char) (rest : List Char) (hc : c ≠ '<') :
    tagRemove (c :: rest) = c :: tagRemove rest := by
  rw [tagRemove_cons, if_neg hc]

theorem tagRemove_cons_none (rest : List Char) (hsp : splitFirstGt rest = none) :
    tagRemove ('<' :: rest) = '<' :: tagRemove rest := by
  rw [tagRemove_cons, if_pos rfl, hsp]

theorem tagRemove_cons_adj (rest a : List Char) (hsp : splitFirstGt rest = some ([], a)) :
    tagRemove ('<' :: rest) = '<' :: tagRemove rest := by
  rw [tagRemove_cons, if_pos rfl, hsp]
  rfl

theorem tagRemove_cons_del (rest b a : List Char) (hsp : splitFirstGt rest = some (b, a))
    (hb : b ≠ []) : tagRemove ('<' :: rest) = tagRemove a := by
  rw [tagRemove_cons, if_pos rfl, hsp]
  simp [hb]

theorem splitFirstGt_after_length {rest b a : List Char}
    (hsp : splitFirstGt rest = some (b, a)) : a.length < rest.length := by
  obtain ⟨hrest, -⟩ := splitFirstGt_eq hsp
  rw [hrest]
  simp
  omega

theorem tagRemove_sublist : ∀ s : List Char, (tagRemove s).Sublist s := by
  refine list_length_induction _ ?_
  intro s IH
  cases s with
  | nil => simp [tagRemove_nil]
  | cons c rest =>
    by_cases hc : c = '<'
    · subst hc
      cases hsp : splitFirstGt rest with
      | none =>
        rw [tagRemove_cons_none rest hsp]
        exact (IH rest (by simp)).cons₂ _
      | some p =>
        obtain ⟨b, a⟩ := p
        by_cases hb : b = []
        · subst hb
          rw [tagRemove_cons_adj rest a hsp]
          exact (IH rest (by simp)).cons₂ _
        · rw [tagRemove_cons_del rest b a hsp hb]
          obtain ⟨hrest, -⟩ := splitFirstGt_eq hsp
          have h1 : (tagRemove a).Sublist a :=
            IH a (by have := splitFirstGt_after_length hsp; simp; omega)
          have h2 : a.Sublist rest := by
            rw [hrest]
            exact (List.sublist_cons_self '>' a).trans (List.sublist_append_right b _)
          exact (h1.trans h2).cons _
    · rw [tagRemove_cons_ne c rest hc]
      exact (IH rest (by simp)).cons₂ _

theorem nmx_cons_iff (c : Char) (t : List Char) (g : Bool) :
    nmx (c :: t) g = true
      ↔ ((c = '<' → (t.head? = some '>' ∨ ('>' ∉ t ∧ g = false))) ∧ nmx t g = true) := by
  show ((if c = '<' then _ else true) && nmx t g) = true ↔ _
  rw [Bool.and_eq_true]
  by_cases hc : c = '<'
  · simp only [if_pos hc, Bool.or_eq_true, decide_eq_true_eq, Bool.and_eq_true,
      Bool.not_eq_true', decide_eq_false_iff_not]
    constructor
    · rintro ⟨h1, h2⟩
      refine ⟨fun _ => ?_, h2⟩
      rcases h1 with h | ⟨h, hg⟩
      · exact Or.inl h
      · exact Or.inr ⟨h, by simpa using hg⟩
    · rintro ⟨h1, h2⟩
      refine ⟨?_, h2⟩
      rcases h1 hc with h | ⟨h, hg⟩
      · exact Or.inl h
      · exact Or.inr ⟨h, by simp [hg]⟩
  · simp [hc]

theorem nmx_append_right : ∀ (a b : List Char) (g : Bool),
    nmx (a ++ b) g = true → nmx b g = true := by
  intro a
  induction a with
  | nil => intro b g h; exact h
  | cons c t ih =>
    intro b g h
    rw [List.cons_append, nmx_cons_iff] at h
    exact ih b g h.2

theorem nm_tagRemove : ∀ s : List Char, nmx (tagRemove s) false = true := by
  refine list_length_induction _ ?_
  intro s IH
  cases s with
  | nil => rfl
  | cons c rest =>
    by_cases hc : c = '<'
    · subst hc
      cases hsp : splitFirstGt rest with
      | none =>
        rw [tagRemove_cons_none rest hsp, nmx_cons_iff]
        refine ⟨fun _ => Or.inr ⟨?_, rfl⟩, IH rest (by simp)⟩
        intro hmem
        exact splitFirstGt_none hsp ((tagRemove_sublist rest).subset hmem)
      | some p =>
        obtain ⟨b, a⟩ := p
        obtain ⟨hrest, hnb⟩ := splitFirstGt_eq hsp
        by_cases hb : b = []
        · subst hb
          rw [tagRemove_cons_adj rest a hsp]
          have htr : tagRemove rest = '>' :: tagRemove a := by
            rw [hrest, List.nil_append]
            exact tagRemove_cons_ne '>' a (by decide)
          rw [nmx_cons_iff]
          exact ⟨fun _ => Or.inl (by rw [htr]; rfl), IH rest (by simp)⟩
        · rw [tagRemove_cons_del rest b a hsp hb]
          refine IH a ?_
          have := splitFirstGt_after_length hsp
          simp
          omega
    · rw [tagRemove_cons_ne c rest hc, nmx_cons_iff]
      exact ⟨fun hEq => absurd hEq hc, IH rest (by simp)⟩

theorem nm_fix : ∀ s : List Char, nmx s false = true → tagRemove s = s := by
  refine list_length_induction _ ?_
  intro s IH hs
  cases s with
  | nil => rfl
  | cons c rest =>
    rw [nmx_cons_iff] at hs
    obtain ⟨hcond, hrestnm⟩ := hs
    by_cases hc : c = '<'
    · subst hc
      cases hsp : splitFirstGt rest with
      | none => rw [tagRemove_cons_none rest hsp, IH rest (by simp) hrestnm]
      | some p =>
        obtain ⟨b, a⟩ := p
        obtain ⟨hrest, hnb⟩ := splitFirstGt_eq hsp
        have hgt : '>' ∈ rest := by rw [hrest]; simp
        have hhead : rest.head? = some '>' := by
          rcases hcond rfl with h | ⟨h, -⟩
          · exact h
          · exact absurd hgt h
        have hb : b = [] := by
          by_contra hb
          obtain ⟨x, b', rfl⟩ := List.exists_cons_of_ne_nil hb
          rw [hrest] at hhead
          simp only [List.cons_append, List.head?_cons, Option.some.injEq] at hhead
          exact hnb (hhead ▸ List.mem_cons_self _ _)
        subst hb
        rw [tagRemove_cons_adj rest a hsp, IH rest (by simp) hrestnm]
    · rw [tagRemove_cons_ne c rest hc, IH rest (by simp) hrestnm]

theorem nmx_anti : ∀ (x : List Char) (g g' : Bool),
    nmx x g = true → (g' = true → g = true) → nmx x g' = true := by
  intro x
  induction x with
  | nil => intros; rfl
  | cons c t ih =>
    intro g g' h himp
    rw [nmx_cons_iff] at h ⊢
    obtain ⟨h1, h2⟩ := h
    refine ⟨?_, ih g g' h2 himp⟩
    intro hc
    rcases h1 hc with hh | ⟨hm, hg⟩
    · exact Or.inl hh
    · subst hg
      cases g' with
      | false => exact Or.inr ⟨hm, rfl⟩
      | true => exact Bool.noConfusion (himp rfl)

theorem nmx_append_left : ∀ (a b : List Char) (g : Bool),
    nmx (a ++ b) g = true → b.head? ≠ some '>' →
    nmx a (g || decide ('>' ∈ b)) = true := by
  intro a
  induction a with
  | nil => intros; rfl
  | cons c t ih =>
    intro b g h hb
    rw [List.cons_append, nmx_cons_iff] at h
    obtain ⟨h1, h2⟩ := h
    rw [nmx_cons_iff]
    refine ⟨?_, ih b g h2 hb⟩
    intro hc
    rcases h1 hc with hh | ⟨hm, hg⟩
    · cases t with
      | nil =>
        rw [List.nil_append] at hh
        exact absurd hh hb
      | cons d t' => exact Or.inl (by simpa using hh)
    · simp only [List.mem_append, not_or] at hm
      subst hg
      exact Or.inr ⟨hm.1, by simp [hm.2]⟩

theorem nmx_append : ∀ a b : List Char,
    nmx a (decide ('>' ∈ b)) = true → nmx b false = true → b.head? ≠ some '>' →
    nmx (a ++ b) false = true := by
  intro a
  induction a with
  | nil => intro b _ h2 _; simpa using h2
  | cons c t ih =>
    intro b h1 h2 hb
    rw [nmx_cons_iff] at h1
    obtain ⟨hcond, hrest⟩ := h1
    rw [List.cons_append, nmx_cons_iff]
    refine ⟨?_, ih b hrest h2 hb⟩
    intro hc
    rcases hcond hc with hh | ⟨hm, hg⟩
    · cases t with
      | nil => exact absurd hh (by simp)
      | cons d t' => exact Or.inl (by simpa using hh)
    · have hmb : '>' ∉ b := by simpa using hg
      refine Or.inr ⟨?_, rfl⟩
      rw [List.mem_append]
      rintro (h | h)
      · exact hm h
      · exact hmb h

theorem nmx_drop_suffix : ∀ (x w : List Char) (g : Bool),
    nmx (x ++ w) g = true → '>' ∉ w → nmx x g = true := by
  intro x
  induction x with
  | nil => intros; rfl
  | cons c t ih =>
    intro w g h hw
    rw [List.cons_append, nmx_cons_iff] at h
    obtain ⟨h1, h2⟩ := h
    rw [nmx_cons_iff]
    refine ⟨?_, ih w g h2 hw⟩
    intro hc
    rcases h1 hc with hh | ⟨hm, hg⟩
    · cases t with
      | nil =>
        rw [List.nil_append] at hh
        cases w with
        | nil => exact Option.noConfusion hh
        | cons d w' =>
          have hd : d = '>' := Option.some.inj (by simpa using hh)
          exact absurd (show '>' ∈ d :: w' by rw [hd]; exact List.mem_cons_self _ _) hw
      | cons d t' => exact Or.inl (by simpa using hh)
    · simp only [List.mem_append, not_or] at hm
      exact Or.inr ⟨hm.1, hg⟩

/-! ### Splitlines, strip, join -/

theorem pySplitlines_nil : pySplitlines [] = [] := rfl

theorem pySplitlines_crlf (rest : List Char) :
    pySplitlines ('\r' :: '\n' :: rest) = [] :: pySplitlines rest := rfl

theorem pySplitlines_boundary (c : Char) (rest : List Char)
    (hc : isLineBoundary c = true) (hcr : ¬(c = '\r' ∧ rest.head? = some '\n')) :
    pySplitlines (c :: rest) = [] :: pySplitlines rest := by
  rw [pySplitlines.eq_def]
  split
  · rename_i heq
    exact List.noConfusion heq
  · rename_i rest2 heq
    injection heq with h1 h2
    exact absurd ⟨h1, by rw [h2]; rfl⟩ hcr
  · rename_i heq
    injection heq with h1 h2
    subst h1
    subst h2
    rw [if_pos hc]

theorem pySplitlines_line (c : Char) (rest : List Char) (hc : isLineBoundary c = false) :
    pySplitlines (c :: rest)
      = match pySplitlines rest with
        | [] => [[c]]
        | l :: ls => (c :: l) :: ls := by
  have hcr : c ≠ '\r' := by
    intro h
    rw [h] at hc
    exact absurd hc (by decide)
  rw [pySplitlines.eq_def]
  split
  · rename_i heq
    exact List.noConfusion heq
  · rename_i heq
    injection heq with h1 h2
    exact absurd h1 hcr
  · rename_i heq
    injection heq with h1 h2
    subst h1
    subst h2
    rw [if_neg (by rw [hc]; exact Bool.false_ne_true)]

theorem pySplitlines_append_boundary : ∀ (l : List Char) (c : Char) (r : List Char),
    (∀ x ∈ l, isLineBoundary x = false) → isLineBoundary c = true →
    ¬(c = '\r' ∧ r.head? = some '\n') →
    pySplitlines (l ++ c :: r) = l :: pySplitlines r := by
  intro l
  induction l with
  | nil =>
    intro c r _ hc hcr
    rw [List.nil_append, pySplitlines_boundary c r hc hcr]
  | cons a l' ih =>
    intro c r hl hc hcr
    have ha : isLineBoundary a = false := hl a (List.mem_cons_self _ _)
    rw [List.cons_append, pySplitlines_line a _ ha,
      ih c r (fun x hx => hl x (List.mem_cons_of_mem _ hx)) hc hcr]

theorem pySplitlines_append_crlf : ∀ (l r : List Char),
    (∀ x ∈ l, isLineBoundary x = false) →
    pySplitlines (l ++ '\r' :: '\n' :: r) = l :: pySplitlines r := by
  intro l
  induction l with
  | nil => intro r _; rw [List.nil_append, pySplitlines_crlf]
  | cons a l' ih =>
    intro r hl
    have ha : isLineBoundary a = false := hl a (List.mem_cons_self _ _)
    rw [List.cons_append, pySplitlines_line a _ ha,
      ih r (fun x hx => hl x (List.mem_cons_of_mem _ hx))]

theorem pySplitlines_no_boundary : ∀ l : List Char,
    (∀ x ∈ l, isLineBoundary x = false) →
    pySplitlines l = if l.isEmpty then [] else [l] := by
  intro l
  induction l with
  | nil => intro _; rfl
  | cons a l' ih =>
    intro hl
    have ha : isLineBoundary a = false := hl a (List.mem_cons_self _ _)
    rw [pySplitlines_line a l' ha, ih (fun x hx => hl x (List.mem_cons_of_mem _ hx))]
    cases l' with
    | nil => rfl
    | cons b l'' => rw [if_neg (by simp), if_neg (by simp)]

theorem pySplitlines_mem_chars : ∀ s : List Char, ∀ k ∈ pySplitlines s, ∀ c ∈ k, c ∈ s := by
  refine list_length_induction _ ?_
  intro s IH
  cases s with
  | nil => intro k hk; exact absurd hk (by simp [pySplitlines_nil])
  | cons a s' =>
    by_cases hb : isLineBoundary a = true
    · by_cases hpair : a = '\r' ∧ s'.head? = some '\n'
      · obtain ⟨ha, hh⟩ := hpair
        subst ha
        cases s' with
        | nil => exact absurd hh (by simp)
        | cons d s'' =>
          have hd : d = '\n' := Option.some.inj (by simpa using hh)
          subst hd
          rw [pySplitlines_crlf]
          intro k hk c hc
          rcases List.mem_cons.mp hk with hEq | hmem
          · subst hEq; exact absurd hc (by simp)
          · exact List.mem_cons_of_mem _ (List.mem_cons_of_mem _
              (IH s'' (by simp; omega) k hmem c hc))
      · rw [pySplitlines_boundary a s' hb hpair]
        intro k hk c hc
        rcases List.mem_cons.mp hk with hEq | hmem
        · subst hEq; exact absurd hc (by simp)
        · exact List.mem_cons_of_mem _ (IH s' (by simp) k hmem c hc)
    · rw [pySplitlines_line a s' (by simpa using hb)]
      intro k hk c hc
      cases hps : pySplitlines s' with
      | nil =>
        rw [hps] at hk
        have : k = [a] := by simpa using hk
        subst this
        have : c = a := by simpa using hc
        subst this
        exact List.mem_cons_self _ _
      | cons l ls =>
        rw [hps] at hk
        rcases List.mem_cons.mp hk with hEq | hmem
        · subst hEq
          rcases List.mem_cons.mp hc with hEq2 | hmem2
          · subst hEq2; exact List.mem_cons_self _ _
          · exact List.mem_cons_of_mem _
              (IH s' (by simp) l (hps ▸ List.mem_cons_self _ _) c hmem2)
        · exact List.mem_cons_of_mem _
            (IH s' (by simp) k (hps ▸ List.mem_cons_of_mem _ hmem) c hc)

theorem pySplitlines_boundaryFree : ∀ s : List Char, ∀ k ∈ pySplitlines s,
    ∀ c ∈ k, isLineBoundary c = false := by
  refine list_length_induction _ ?_
  intro s IH
  cases s with
  | nil => intro k hk; exact absurd hk (by simp [pySplitlines_nil])
  | cons a s' =>
    by_cases hb : isLineBoundary a = true
    · by_cases hpair : a = '\r' ∧ s'.head? = some '\n'
      · obtain ⟨ha, hh⟩ := hpair
        subst ha
        cases s' with
        | nil => exact absurd hh (by simp)
        | cons d s'' =>
          have hd : d = '\n' := Option.some.inj (by simpa using hh)
          subst hd
          rw [pySplitlines_crlf]
          intro k hk c hc
          rcases List.mem_cons.mp hk with hEq | hmem
          · subst hEq; exact absurd hc (by simp)
          · exact IH s'' (by simp; omega) k hmem c hc
      · rw [pySplitlines_boundary a s' hb hpair]
        intro k hk c hc
        rcases List.mem_cons.mp hk with hEq | hmem
        · subst hEq; exact absurd hc (by simp)
        · exact IH s' (by simp) k hmem c hc
    · rw [pySplitlines_line a s' (by simpa using hb)]
      intro k hk c hc
      cases hps : pySplitlines s' with
      | nil =>
        rw [hps] at hk
        have : k = [a] := by simpa using hk
        subst this
        have : c = a := by simpa using hc
        subst this
        simpa using hb
      | cons l ls =>
        rw [hps] at hk
        rcases List.mem_cons.mp hk with hEq | hmem
        · subst hEq
          rcases List.mem_cons.mp hc with hEq2 | hmem2
          · subst hEq2; simpa using hb
          · exact IH s' (by simp) l (hps ▸ List.mem_cons_self _ _) c hmem2
        · exact IH s' (by simp) k (hps ▸ List.mem_cons_of_mem _ hmem) c hc

theorem dropWhile_head_false (p : Char → Bool) : ∀ l : List Char, ∀ c,
    (l.dropWhile p).head? = some c → p c = false := by
  intro l
  induction l with
  | nil => intro c h; exact Option.noConfusion h
  | cons a t ih =>
    intro c h
    by_cases hp : p a
    · rw [List.dropWhile_cons_of_pos hp] at h
      exact ih c h
    · rw [List.dropWhile_cons_of_neg hp] at h
      have : a = c := Option.some.inj (by simpa using h)
      subst this
      simpa using hp

theorem stripLeft_eq_self (z : List Char)
    (h : ∀ c, z.head? = some c → pyIsSpace c = false) : stripLeft z = z := by
  cases z with
  | nil => rfl
  | cons a t =>
    have := h a rfl
    simp [stripLeft, List.dropWhile_cons, this]

theorem stripLeft_idem (l : List Char) : stripLeft (stripLeft l) = stripLeft l :=
  stripLeft_eq_self _ (fun c h => dropWhile_head_false pyIsSpace l c h)

theorem stripRight_decomp (l : List Char) :
    ∃ w, l = stripRight l ++ w ∧ ∀ c ∈ w, pyIsSpace c = true := by
  refine ⟨(l.reverse.takeWhile pyIsSpace).reverse, ?_, ?_⟩
  · calc l = l.reverse.reverse := (List.reverse_reverse l).symm
      _ = (l.reverse.takeWhile pyIsSpace ++ l.reverse.dropWhile pyIsSpace).reverse := by
            rw [List.takeWhile_append_dropWhile]
      _ = stripRight l ++ (l.reverse.takeWhile pyIsSpace).reverse := by
            rw [List.reverse_append]; rfl
  · intro c hc
    rw [List.mem_reverse] at hc
    exact List.mem_takeWhile_imp hc

theorem stripRight_idem (l : List Char) : stripRight (stripRight l) = stripRight l := by
  show (((l.reverse.dropWhile pyIsSpace).reverse).reverse.dropWhile pyIsSpace).reverse = _
  rw [List.reverse_reverse]
  have : (l.reverse.dropWhile pyIsSpace).dropWhile pyIsSpace = l.reverse.dropWhile pyIsSpace :=
    stripLeft_idem l.reverse
  rw [this]
  rfl

theorem head?_stripRight (z : List Char) (c : Char)
    (h : (stripRight z).head? = some c) : z.head? = some c := by
  obtain ⟨w, hz, -⟩ := stripRight_decomp z
  rw [hz]
  cases hsr : stripRight z with
  | nil => rw [hsr] at h; exact Option.noConfusion h
  | cons d t =>
    rw [hsr] at h
    simpa using h

theorem pyStrip_idem (l : List Char) : pyStrip (pyStrip l) = pyStrip l := by
  show stripRight (stripLeft (stripRight (stripLeft l))) = stripRight (stripLeft l)
  have h1 : stripLeft (stripRight (stripLeft l)) = stripRight (stripLeft l) := by
    apply stripLeft_eq_self
    intro c hc
    exact dropWhile_head_false pyIsSpace l c (head?_stripRight _ c hc)
  rw [h1, stripRight_idem]

theorem pyStrip_mem (l : List Char) (c : Char) (h : c ∈ pyStrip l) : c ∈ l := by
  have h1 : c ∈ stripLeft l := by
    show c ∈ l.dropWhile pyIsSpace
    have h2 : c ∈ ((stripLeft l).reverse.dropWhile pyIsSpace).reverse := h
    rw [List.mem_reverse] at h2
    have h3 := (List.dropWhile_sublist pyIsSpace).subset h2
    rwa [List.mem_reverse] at h3
  exact (List.dropWhile_sublist pyIsSpace).subset h1

theorem nmx_pyStrip (l : List Char) (g : Bool) (h : nmx l g = true) :
    nmx (pyStrip l) g = true := by
  have h1 : nmx (stripLeft l) g = true := by
    apply nmx_append_right (l.takeWhile pyIsSpace) (l.dropWhile pyIsSpace) g
    rw [List.takeWhile_append_dropWhile]
    exact h
  obtain ⟨w, hz, hw⟩ := stripRight_decomp (stripLeft l)
  rw [hz] at h1
  apply nmx_drop_suffix _ w g h1
  intro hmem
  exact absurd (hw '>' hmem) (by decide)

theorem joinNL_single (l : List Char) : joinNL [l] = l := rfl

theorem joinNL_cons (l : List Char) (ls : List (List Char)) (h : ls ≠ []) :
    joinNL (l :: ls) = l ++ '\n' :: joinNL ls := by
  show (if ls.isEmpty then l else l ++ '\n' :: joinNL ls) = _
  rw [if_neg (by simpa using h)]

theorem joinNL_mem : ∀ (ls : List (List Char)) (c : Char),
    c ∈ joinNL ls → c = '\n' ∨ ∃ k ∈ ls, c ∈ k := by
  intro ls
  induction ls with
  | nil => intro c h; exact absurd h (by simp [joinNL])
  | cons l ls' ih =>
    intro c h
    cases ls' with
    | nil => exact Or.inr ⟨l, List.mem_cons_self _ _, by simpa [joinNL_single] using h⟩
    | cons k2 ls'' =>
      rw [joinNL_cons l _ (by simp)] at h
      rcases List.mem_append.mp h with hl | hr
      · exact Or.inr ⟨l, List.mem_cons_self _ _, hl⟩
      · rcases List.mem_cons.mp hr with hEq | hmem
        · exact Or.inl hEq
        · rcases ih c hmem with hEq | ⟨k, hk, hck⟩
          · exact Or.inl hEq
          · exact Or.inr ⟨k, List.mem_cons_of_mem _ hk, hck⟩

theorem pySplitlines_joinNL : ∀ ls : List (List Char),
    (∀ k ∈ ls, k ≠ [] ∧ ∀ c ∈ k, isLineBoundary c = false) →
    pySplitlines (joinNL ls) = ls := by
  intro ls
  induction ls with
  | nil => intro _; rfl
  | cons k ls' ih =>
    intro h
    obtain ⟨hk, hkb⟩ := h k (List.mem_cons_self _ _)
    cases ls' with
    | nil =>
      rw [joinNL_single, pySplitlines_no_boundary k hkb, if_neg (by simpa using hk)]
    | cons k2 ls'' =>
      rw [joinNL_cons k _ (by simp)]
      rw [pySplitlines_append_boundary k '\n' (joinNL (k2 :: ls'')) hkb (by decide)
        (by rintro ⟨h1, -⟩; exact absurd h1 (by decide))]
      rw [ih (fun k' hk' => h k' (List.mem_cons_of_mem _ hk'))]

theorem processLines_mem {lines : List (List Char)} {k : List Char}
    (h : k ∈ processLines lines) :
    ∃ line ∈ lines, k = pyStrip line ∧ keepLine k = true := by
  obtain ⟨hmem, hkeep⟩ := List.mem_filter.mp h
  obtain ⟨line, hline, hEq⟩ := List.mem_map.mp hmem
  exact ⟨line, hline, hEq.symm, hkeep⟩

theorem keepLine_ne_nil {k : List Char} (h : keepLine k = true) : k ≠ [] := by
  intro hEq
  subst hEq
  exact absurd h (by decide)

/-! ### The scanning invariant survives line processing -/

theorem nm_core_step (l r' : List Char)
    (hl : nmx l (decide ('>' ∈ r')) = true)
    (hrec : nmx (joinNL (processLines (pySplitlines r'))) false = true) :
    nmx (joinNL (processLines (l :: pySplitlines r'))) false = true := by
  have hx : nmx (pyStrip l) (decide ('>' ∈ r')) = true := nmx_pyStrip l _ hl
  show nmx (joinNL (((l :: pySplitlines r').map pyStrip).filter keepLine)) false = true
  rw [List.map_cons]
  by_cases hkeep : keepLine (pyStrip l) = true
  · rw [List.filter_cons_of_pos hkeep]
    show nmx (joinNL (pyStrip l :: processLines (pySplitlines r'))) false = true
    cases hcls : processLines (pySplitlines r') with
    | nil =>
      rw [joinNL_single]
      exact nmx_anti _ _ false hx (fun h => Bool.noConfusion h)
    | cons k ks =>
      rw [joinNL_cons _ _ (by simp)]
      apply nmx_append (pyStrip l) ('\n' :: joinNL (k :: ks))
      · refine nmx_anti _ _ _ hx ?_
        intro hdec
        rw [decide_eq_true_eq] at hdec ⊢
        rcases List.mem_cons.mp hdec with hEq | hmem
        · exact absurd hEq (by decide)
        · rcases joinNL_mem _ _ hmem with hEq | ⟨k', hk', hck'⟩
          · exact absurd hEq (by decide)
          · have hk'' : k' ∈ processLines (pySplitlines r') := by rw [hcls]; exact hk'
            obtain ⟨line, hline, hkeq, -⟩ := processLines_mem hk''
            exact pySplitlines_mem_chars r' line hline '>' (pyStrip_mem line '>' (hkeq ▸ hck'))
      · rw [nmx_cons_iff]
        exact ⟨fun h => absurd h (by decide), hcls ▸ hrec⟩
      · exact fun h => absurd (Option.some.inj h) (by decide)
  · rw [List.filter_cons_of_neg hkeep]
    exact hrec

theorem nm_core : ∀ s : List Char, nmx s false = true →
    nmx (joinNL (processLines (pySplitlines s))) false = true := by
  refine list_length_induction _ ?_
  intro s IH hnm
  by_cases hs : s = []
  · subst hs; rfl
  · have hsplit : s.takeWhile (fun c => !isLineBoundary c)
        ++ s.dropWhile (fun c => !isLineBoundary c) = s :=
      List.takeWhile_append_dropWhile (fun c => !isLineBoundary c) s
    have hlfree : ∀ x ∈ s.takeWhile (fun c => !isLineBoundary c),
        isLineBoundary x = false := by
      intro x hx
      have := List.mem_takeWhile_imp hx
      simpa using this
    cases hr : s.dropWhile (fun c => !isLineBoundary c) with
    | nil =>
      have hfree : ∀ x ∈ s, isLineBoundary x = false := by
        intro x hx
        have hx2 : x ∈ s.takeWhile (fun c => !isLineBoundary c)
            ++ s.dropWhile (fun c => !isLineBoundary c) := by rw [hsplit]; exact hx
        rw [hr, List.append_nil] at hx2
        exact hlfree x hx2
      rw [pySplitlines_no_boundary s hfree, if_neg (by simpa using hs)]
      show nmx (joinNL (([s].map pyStrip).filter keepLine)) false = true
      rw [List.map_cons, List.map_nil]
      by_cases hkeep : keepLine (pyStrip s) = true
      · rw [List.filter_cons_of_pos hkeep, List.filter_nil, joinNL_single]
        exact nmx_pyStrip s false hnm
      · rw [List.filter_cons_of_neg hkeep, List.filter_nil]
        rfl
    | cons rb r1 =>
      have hrbB : isLineBoundary rb = true := by
        have := dropWhile_head_false (fun c => !isLineBoundary c) s rb (by rw [hr]; rfl)
        simpa using this
      have hseq : s = s.takeWhile (fun c => !isLineBoundary c) ++ rb :: r1 := by
        conv_lhs => rw [← hsplit]
        rw [hr]
      have hhead : (rb :: r1).head? ≠ some '>' := by
        intro hEq
        have hb : rb = '>' := Option.some.inj (by simpa using hEq)
        rw [hb] at hrbB
        exact absurd hrbB (by decide)
      have hnml : nmx (s.takeWhile (fun c => !isLineBoundary c))
          (false || decide ('>' ∈ rb :: r1)) = true := by
        apply nmx_append_left _ _ false ?_ hhead
        rw [← hseq]
        exact hnm
      by_cases hpair : rb = '\r' ∧ r1.head? = some '\n'
      · obtain ⟨hrb, hh⟩ := hpair
        cases r1 with
        | nil => exact absurd hh (by simp)
        | cons d r2 =>
          have hd : d = '\n' := Option.some.inj (by simpa using hh)
          subst hrb
          subst hd
          rw [hseq, pySplitlines_append_crlf _ r2 hlfree]
          apply nm_core_step
          · refine nmx_anti _ _ _ hnml ?_
            intro hdec
            simp only [Bool.false_or, decide_eq_true_eq] at hdec ⊢
            exact List.mem_cons_of_mem _ (List.mem_cons_of_mem _ hdec)
          · refine IH r2 ?_ ?_
            · conv_rhs => rw [hseq]
              simp
              omega
            · apply nmx_append_right
                (s.takeWhile (fun c => !isLineBoundary c) ++ ['\r', '\n']) r2 false
              rw [List.append_assoc]
              rw [show (['\r', '\n'] : List Char) ++ r2 = '\r' :: '\n' :: r2 from rfl]
              rw [← hseq]
              exact hnm
      · rw [hseq, pySplitlines_append_boundary _ rb r1 hlfree hrbB hpair]
        apply nm_core_step
        · refine nmx_anti _ _ _ hnml ?_
          intro hdec
          simp only [Bool.false_or, decide_eq_true_eq] at hdec ⊢
          exact List.mem_cons_of_mem _ hdec
        · refine IH r1 ?_ ?_
          · conv_rhs => rw [hseq]
            simp
            omega
          · apply nmx_append_right
              (s.takeWhile (fun c => !isLineBoundary c) ++ [rb]) r1 false
            rw [List.append_assoc]
            rw [show ([rb] : List Char) ++ r1 = rb :: r1 from rfl]
            rw [← hseq]
            exact hnm

/-! ### Idempotence of the text-level core -/

theorem srtCore_lines (t : List Char) :
    ∀ k ∈ processLines (pySplitlines (tagRemove t)),
      keepLine k = true ∧ pyStrip k = k ∧ ∀ c ∈ k, isLineBoundary c = false := by
  intro k hk
  obtain ⟨line, hline, hkeq, hkeep⟩ := processLines_mem hk
  refine ⟨hkeep, by rw [hkeq, pyStrip_idem], ?_⟩
  intro c hc
  exact pySplitlines_boundaryFree (tagRemove t) line hline c (pyStrip_mem line c (hkeq ▸ hc))

theorem nm_srtCore (t : List Char) : nmx (srtCore t) false = true :=
  nm_core (tagRemove t) (nm_tagRemove t)

theorem tagRemove_srtCore (t : List Char) : tagRemove (srtCore t) = srtCore t :=
  nm_fix _ (nm_srtCore t)

theorem pySplitlines_srtCore (t : List Char) :
    pySplitlines (srtCore t) = processLines (pySplitlines (tagRemove t)) := by
  show pySplitlines (joinNL (processLines (pySplitlines (tagRemove t)))) = _
  apply pySplitlines_joinNL
  intro k hk
  obtain ⟨hkeep, -, hbf⟩ := srtCore_lines t k hk
  exact ⟨keepLine_ne_nil hkeep, hbf⟩

theorem processLines_srtCore (t : List Char) :
    processLines (processLines (pySplitlines (tagRemove t)))
      = processLines (pySplitlines (tagRemove t)) := by
  show ((processLines (pySplitlines (tagRemove t))).map pyStrip).filter keepLine = _
  have hmap : (processLines (pySplitlines (tagRemove t))).map pyStrip
      = processLines (pySplitlines (tagRemove t)) := by
    have h1 : (processLines (pySplitlines (tagRemove t))).map pyStrip
        = (processLines (pySplitlines (tagRemove t))).map id :=
      List.map_congr_left (fun k hk => (srtCore_lines t k hk).2.1)
    rw [h1, List.map_id]
  rw [hmap]
  rw [List.filter_eq_self.mpr (fun k hk => (srtCore_lines t k hk).1)]

theorem srtCore_idem (t : List Char) : srtCore (srtCore t) = srtCore t := by
  show joinNL (processLines (pySplitlines (tagRemove (srtCore t)))) = srtCore t
  rw [tagRemove_srtCore, pySplitlines_srtCore, processLines_srtCore]
  rfl

/-! ### UTF-8 round trip -/

theorem char_toNat_valid (c : Char) :
    c.toNat < 0xd800 ∨ (0xdfff < c.toNat ∧ c.toNat < 0x110000) := by
  rcases c.valid with h | ⟨hl, hr⟩
  · exact Or.inl (UInt32.toNat_lt_of_lt (by decide) h)
  · exact Or.inr ⟨UInt32.lt_toNat_of_lt (by decide) hl, UInt32.toNat_lt_of_lt (by decide) hr⟩

theorem decGo_utf8EncodeNat (n : Nat)
    (hval : n < 0xd800 ∨ (0xdfff < n ∧ n < 0x110000)) (rest : List Nat) :
    decGo DecState.start (utf8EncodeNat n ++ rest)
      = Char.ofNat n :: decGo DecState.start rest := by
  have hlt : n < 0x110000 := by rcases hval with h | ⟨-, h⟩ <;> omega
  by_cases h1 : n < 0x80
  · rw [utf8EncodeNat, if_pos h1]
    show (stepDec DecState.start n).2 ++ decGo (stepDec DecState.start n).1 rest = _
    have hstep : stepDec DecState.start n = (DecState.start, [Char.ofNat n]) := by
      show classifyByte n = _
      rw [classifyByte, if_pos h1]
    rw [hstep]
    rfl
  · by_cases h2 : n < 0x800
    · rw [utf8EncodeNat, if_neg h1, if_pos h2]
      show (stepDec DecState.start (0xC0 + n / 64)).2
          ++ decGo (stepDec DecState.start (0xC0 + n / 64)).1 ((0x80 + n % 64) :: rest) = _
      have hstep1 : stepDec DecState.start (0xC0 + n / 64)
          = (DecState.expect 1 0x80 0xBF (0xC0 + n / 64 - 0xC0), []) := by
        show classifyByte _ = _
        rw [classifyByte, if_neg (by omega), if_neg (by omega), if_pos (by omega)]
      rw [hstep1]
      show (stepDec (DecState.expect 1 0x80 0xBF (0xC0 + n / 64 - 0xC0)) (0x80 + n % 64)).2
          ++ decGo (stepDec (DecState.expect 1 0x80 0xBF (0xC0 + n / 64 - 0xC0))
              (0x80 + n % 64)).1 rest = _
      have hstep2 : stepDec (DecState.expect 1 0x80 0xBF (0xC0 + n / 64 - 0xC0))
          (0x80 + n % 64)
          = (DecState.start,
              [Char.ofNat ((0xC0 + n / 64 - 0xC0) * 64 + (0x80 + n % 64 - 0x80))]) := by
        show (if _ then _ else _) = _
        rw [if_pos (by simp only [Bool.and_eq_true, decide_eq_true_eq]; omega),
          if_pos rfl]
      rw [hstep2]
      have harith : (0xC0 + n / 64 - 0xC0) * 64 + (0x80 + n % 64 - 0x80) = n := by omega
      rw [harith]
      rfl
    · by_cases h3 : n < 0x10000
      · rw [utf8EncodeNat, if_neg h1, if_neg h2, if_pos h3]
        have hd : n / 64 / 64 = n / 4096 := by
          rw [Nat.div_div_eq_div_mul]
        show (stepDec DecState.start (0xE0 + n / 4096)).2
            ++ decGo (stepDec DecState.start (0xE0 + n / 4096)).1
              ((0x80 + n / 64 % 64) :: (0x80 + n % 64) :: rest) = _
        have hstep1 : stepDec DecState.start (0xE0 + n / 4096)
            = (DecState.expect 2 (if 0xE0 + n / 4096 = 0xE0 then 0xA0 else 0x80)
                (if 0xE0 + n / 4096 = 0xED then 0x9F else 0xBF)
                (0xE0 + n / 4096 - 0xE0), []) := by
          show classifyByte _ = _
          rw [classifyByte, if_neg (by omega), if_neg (by omega), if_neg (by omega),
            if_pos (by omega)]
        rw [hstep1]
        show (stepDec _ (0x80 + n / 64 % 64)).2
            ++ decGo (stepDec _ (0x80 + n / 64 % 64)).1 ((0x80 + n % 64) :: rest) = _
        have hstep2 : stepDec
            (DecState.expect 2 (if 0xE0 + n / 4096 = 0xE0 then 0xA0 else 0x80)
              (if 0xE0 + n / 4096 = 0xED then 0x9F else 0xBF) (0xE0 + n / 4096 - 0xE0))
            (0x80 + n / 64 % 64)
            = (DecState.expect 1 0x80 0xBF
                ((0xE0 + n / 4096 - 0xE0) * 64 + (0x80 + n / 64 % 64 - 0x80)), []) := by
          show (if _ then _ else _) = _
          rw [if_pos ?hcond, if_neg (by omega)]
          case hcond =>
            simp only [Bool.and_eq_true, decide_eq_true_eq]
            constructor
            · by_cases he : 0xE0 + n / 4096 = 0xE0
              · rw [if_pos he]; omega
              · rw [if_neg he]; omega
            · by_cases he : 0xE0 + n / 4096 = 0xED
              · rw [if_pos he]; omega
              · rw [if_neg he]; omega
        rw [hstep2]
        show (stepDec _ (0x80 + n % 64)).2 ++ decGo (stepDec _ (0x80 + n % 64)).1 rest = _
        have hstep3 : stepDec
            (DecState.expect 1 0x80 0xBF
              ((0xE0 + n / 4096 - 0xE0) * 64 + (0x80 + n / 64 % 64 - 0x80)))
            (0x80 + n % 64)
            = (DecState.start,
                [Char.ofNat (((0xE0 + n / 4096 - 0xE0) * 64 + (0x80 + n / 64 % 64 - 0x80)) * 64
                    + (0x80 + n % 64 - 0x80))]) := by
          show (if _ then _ else _) = _
          rw [if_pos (by simp only [Bool.and_eq_true, decide_eq_true_eq]; omega), if_pos rfl]
        rw [hstep3]
        have harith : ((0xE0 + n / 4096 - 0xE0) * 64 + (0x80 + n / 64 % 64 - 0x80)) * 64
            + (0x80 + n % 64 - 0x80) = n := by omega
        rw [harith]
        rfl
      · rw [utf8EncodeNat, if_neg h1, if_neg h2, if_neg h3]
        have hA : n / 64 / 64 = n / 4096 := by rw [Nat.div_div_eq_div_mul]
        have hB : n / 4096 / 64 = n / 262144 := by rw [Nat.div_div_eq_div_mul]
        show (stepDec DecState.start (0xF0 + n / 262144)).2
            ++ decGo (stepDec DecState.start (0xF0 + n / 262144)).1
              ((0x80 + n / 4096 % 64) :: (0x80 + n / 64 % 64) :: (0x80 + n % 64) :: rest) = _
        have hstep1 : stepDec DecState.start (0xF0 + n / 262144)
            = (DecState.expect 3 (if 0xF0 + n / 262144 = 0xF0 then 0x90 else 0x80)
                (if 0xF0 + n / 262144 = 0xF4 then 0x8F else 0xBF)
                (0xF0 + n / 262144 - 0xF0), []) := by
          show classifyByte _ = _
          rw [classifyByte, if_neg (by omega), if_neg (by omega), if_neg (by omega),
            if_neg (by omega), if_pos (by omega)]
        rw [hstep1]
        show (stepDec _ (0x80 + n / 4096 % 64)).2
            ++ decGo (stepDec _ (0x80 + n / 4096 % 64)).1
              ((0x80 + n / 64 % 64) :: (0x80 + n % 64) :: rest) = _
        have hstep2 : stepDec
            (DecState.expect 3 (if 0xF0 + n / 262144 = 0xF0 then 0x90 else 0x80)
              (if 0xF0 + n / 262144 = 0xF4 then 0x8F else 0xBF) (0xF0 + n / 262144 - 0xF0))
            (0x80 + n / 4096 % 64)
            = (DecState.expect 2 0x80 0xBF
                ((0xF0 + n / 262144 - 0xF0) * 64 + (0x80 + n / 4096 % 64 - 0x80)), []) := by
          show (if _ then _ else _) = _
          rw [if_pos ?hcond, if_neg (by omega)]
          case hcond =>
            simp only [Bool.and_eq_true, decide_eq_true_eq]
            constructor
            · by_cases he : 0xF0 + n / 262144 = 0xF0
              · rw [if_pos he]; omega
              · rw [if_neg he]; omega
            · by_cases he : 0xF0 + n / 262144 = 0xF4
              · rw [if_pos he]; omega
              · rw [if_neg he]; omega
        rw [hstep2]
        show (stepDec _ (0x80 + n / 64 % 64)).2
            ++ decGo (stepDec _ (0x80 + n / 64 % 64)).1 ((0x80 + n % 64) :: rest) = _
        have hstep3 : stepDec
            (DecState.expect 2 0x80 0xBF
              ((0xF0 + n / 262144 - 0xF0) * 64 + (0x80 + n / 4096 % 64 - 0x80)))
            (0x80 + n / 64 % 64)
            = (DecState.expect 1 0x80 0xBF
                (((0xF0 + n / 262144 - 0xF0) * 64 + (0x80 + n / 4096 % 64 - 0x80)) * 64
                  + (0x80 + n / 64 % 64 - 0x80)), []) := by
          show (if _ then _ else _) = _
          rw [if_pos (by simp only [Bool.and_eq_true, decide_eq_true_eq]; omega),
            if_neg (by omega)]
        rw [hstep3]
        show (stepDec _ (0x80 + n % 64)).2 ++ decGo (stepDec _ (0x80 + n % 64)).1 rest = _
        have hstep4 : stepDec
            (DecState.expect 1 0x80 0xBF
              (((0xF0 + n / 262144 - 0xF0) * 64 + (0x80 + n / 4096 % 64 - 0x80)) * 64
                + (0x80 + n / 64 % 64 - 0x80)))
            (0x80 + n % 64)
            = (DecState.start,
                [Char.ofNat ((((0xF0 + n / 262144 - 0xF0) * 64 + (0x80 + n / 4096 % 64 - 0x80))
                      * 64 + (0x80 + n / 64 % 64 - 0x80)) * 64 + (0x80 + n % 64 - 0x80))]) := by
          show (if _ then _ else _) = _
          rw [if_pos (by simp only [Bool.and_eq_true, decide_eq_true_eq]; omega), if_pos rfl]
        rw [hstep4]
        have harith : (((0xF0 + n / 262144 - 0xF0) * 64 + (0x80 + n / 4096 % 64 - 0x80)) * 64
            + (0x80 + n / 64 % 64 - 0x80)) * 64 + (0x80 + n % 64 - 0x80) = n := by omega
        rw [harith]
        rfl

theorem utf8_roundtrip : ∀ s : List Char, utf8DecodeIgnore (utf8Encode s) = s := by
  intro s
  induction s with
  | nil => rfl
  | cons c s' ih =>
    show decGo DecState.start (utf8EncodeChar c ++ utf8Encode s') = c :: s'
    rw [utf8EncodeChar, decGo_utf8EncodeNat c.toNat (char_toNat_valid c), Char.ofNat_toNat]
    exact congrArg _ ih

/-! ## Claim theorems -/

/-- Claim C3: for every input string, `clean_filename` removes exactly the
characters `\ / * ? : " < > |`: none of the nine occurs in the output, the
output is a subsequence of the input (all other characters kept in order),
and every character outside the nine keeps its exact occurrence count —
no truncation, no normalization. -/
theorem clean_filename_removes_exactly_bad (s : String) :
    (∀ c ∈ badFileChars, c ∉ (clean_filename s).data) ∧
    (clean_filename s).data.Sublist s.data ∧
    (∀ c : Char, c ∉ badFileChars → (clean_filename s).data.count c = s.data.count c) := by
  refine ⟨?_, ?_, ?_⟩
  · intro c hc hmem
    simp only [clean_filename, List.mem_filter, decide_eq_true_eq] at hmem
    exact hmem.2 hc
  · exact List.filter_sublist _
  · intro c hc
    simp only [clean_filename]
    rw [List.count_filter]
    simp [hc]

/-- Witness for C3 at the concrete title `a\b/c:πé*?"<>|d`. -/
theorem clean_filename_removes_exactly_bad_witness :
    ('\\' ∉ (clean_filename "a\\b/c:πé*?\"<>|d").data) ∧
    ((clean_filename "a\\b/c:πé*?\"<>|d").data.count 'π' = ("a\\b/c:πé*?\"<>|d" : String).data.count 'π') := by
  refine ⟨(clean_filename_removes_exactly_bad "a\\b/c:πé*?\"<>|d").1 '\\' (by decide), ?_⟩
  exact (clean_filename_removes_exactly_bad "a\\b/c:πé*?\"<>|d").2.2 'π' (by decide)

/-- Claim C6: changing the source url (different from `last_url`) always
resets the session to the empty state — both the loaded metadata and the
processed output are cleared, whatever the previous state was; the
format/selection `on_change` callback clears only the processed output and
retains the metadata. -/
theorem session_state_invalidation {Info : Type} (s : AppState Info) (url : String)
    (h : url ≠ s.last_url) :
    urlSync s url = { video_info := none, last_url := url, processed_files := none } ∧
    (clear_processed_cache s).video_info = s.video_info ∧
    (clear_processed_cache s).processed_files = none := by
  refine ⟨?_, rfl, rfl⟩
  simp [urlSync, h]

/-- Witness for C6: a fully `processed` state is reset by a url change. -/
theorem session_state_invalidation_witness :
    urlSync (⟨some (), "https://old", some [("a.srt", [1])]⟩ : AppState Unit) "https://new"
      = ⟨none, "https://new", none⟩ ∧
    (clear_processed_cache
        (⟨some (), "https://old", some [("a.srt", [1])]⟩ : AppState Unit)).video_info
      = some () ∧
    (clear_processed_cache
        (⟨some (), "https://old", some [("a.srt", [1])]⟩ : AppState Unit)).processed_files
      = none := by
  have h := session_state_invalidation
    (⟨some (), "https://old", some [("a.srt", [1])]⟩ : AppState Unit) "https://new" (by decide)
  exact h

theorem reduceOption_nil_iff {α : Type} (outs : List (Option α)) :
    outs.reduceOption = [] ↔ ∀ o ∈ outs, o = none := by
  constructor
  · intro h o ho
    cases o with
    | none => rfl
    | some f =>
      have hmem : f ∈ outs.reduceOption := List.reduceOption_mem_iff.mpr ho
      rw [h] at hmem
      exact absurd hmem (by simp)
  · intro h
    cases hred : outs.reduceOption with
    | nil => rfl
    | cons f fs =>
      have hmem : f ∈ outs.reduceOption := by rw [hred]; exact List.mem_cons_self _ _
      exact absurd (h _ (List.reduceOption_mem_iff.mp hmem)) (by simp)

/-- Claim C1 counterexample: with two languages selected and only one file
produced (the other track failed), the produced file is named
`"T [en].srt"` — the multi-file rule — and not `"T.srt"` as the single-file
rule (which the claim says applies to a single *produced* file) would
give. -/
theorem selected_count_naming_counterexample :
    processFiles FormatChoice.srt ["English (en)", "French (fr)"] "T"
        [⟨"vid123.en.srt", [104, 105]⟩]
      = [("T [en].srt", [104, 105])] ∧
    ("T [en].srt" : String) ≠ "T.srt" := by
  exact ⟨by decide, by decide⟩

/-- Claim C1 (amended): the final file name of every produced track is the
sanitized title alone plus the format extension when exactly one language
is *selected* (`len(selected_langs) == 1`), and sanitized title +
`" [{code}]"` + extension when more than one language is selected; the
rule depends on the number of selected languages, not on the number of
files actually produced after failures are skipped. -/
theorem processFiles_naming (fc : FormatChoice) (sel : List String) (t : String)
    (files : List RawSubFile) :
    (processFiles fc sel t files).map Prod.fst
      = (files.filter (fun f => strEndsWith f.name (target_ext fc))).map
          (fun f =>
            if sel.length = 1 then t ++ "." ++ final_ext fc
            else t ++ " [" ++ lang_code_of f.name ++ "]." ++ final_ext fc) := by
  show ((files.filter _).map _).map Prod.fst = _
  rw [List.map_map]
  rfl

/-- Claim C2 counterexample: two manual tracks whose names contain
parentheses compose the same label `"B (c (d)"`; the Python dict
assignment overwrites, so the code `"d"` — present only in the manual
set — appears under no label at all (not exactly once as claimed). -/
theorem catalog_label_collision :
    buildSubs [("d", some "B (c"), ("c (d", some "B")] [] = [("B (c (d)", "c (d")] ∧
    ((buildSubs [("d", some "B (c"), ("c (d", some "B")] []).map Prod.snd).count "d" = 0 := by
  exact ⟨by decide, by decide⟩

/-- Claim C2 (amended): provided no two tracks compose the same label (for
instance whenever names and codes contain no parentheses) and the
auto-generated set has distinct codes, the built catalog contains, for a
code present in both sets, the manual label and not the auto-generated
label; every manual label appears exactly once; and the label of an
auto-generated-only code appears exactly once. -/
theorem catalog_dedup (manual auto : List (String × Option String))
    (hA : (auto.map Prod.fst).Nodup)
    (hL : ((manual.map manualLabel) ++ (auto.map autoLabel)).Nodup) :
    (∀ p ∈ auto, p.1 ∈ manual.map Prod.fst →
        autoLabel p ∉ (buildSubs manual auto).map Prod.fst) ∧
    (∀ p ∈ manual, ((buildSubs manual auto).map Prod.fst).count (manualLabel p) = 1) ∧
    (∀ p ∈ auto, p.1 ∉ manual.map Prod.fst →
        ((buildSubs manual auto).map Prod.fst).count (autoLabel p) = 1) := by
  obtain ⟨hM, hAlab, hdisj⟩ := List.nodup_append.mp hL
  rw [buildSubs_eq manual auto hA hL]
  have hkeys : ((manual.map (fun p => (manualLabel p, p.1))
        ++ (auto.filter (fun p => decide (p.1 ∉ manual.map Prod.fst))).map
            (fun p => (autoLabel p, p.1))).map Prod.fst)
      = manual.map manualLabel
        ++ ((auto.filter (fun p => decide (p.1 ∉ manual.map Prod.fst))).map autoLabel) := by
    rw [List.map_append, List.map_map, List.map_map]
    rfl
  rw [hkeys]
  have hfsub : (auto.filter (fun p => decide (p.1 ∉ manual.map Prod.fst))).Sublist auto :=
    List.filter_sublist auto
  have hfnodup : ((auto.filter (fun p => decide (p.1 ∉ manual.map Prod.fst))).map
      autoLabel).Nodup := (List.Sublist.map autoLabel hfsub).nodup hAlab
  refine ⟨?_, ?_, ?_⟩
  · intro p hp hpin
    rw [List.mem_append, not_or]
    constructor
    · intro hmem
      exact hdisj hmem (List.mem_map_of_mem autoLabel hp)
    · intro hmem
      obtain ⟨q, hq, hEq⟩ := List.mem_map.mp hmem
      have hq2 := List.mem_filter.mp hq
      have hqp : q = p := List.inj_on_of_nodup_map hAlab hq2.1 hp hEq
      subst hqp
      rw [decide_eq_true_eq] at hq2
      exact hq2.2 hpin
  · intro p hp
    rw [List.count_append]
    have h1 : (manual.map manualLabel).count (manualLabel p) = 1 :=
      List.count_eq_one_of_mem hM (List.mem_map_of_mem manualLabel hp)
    have h2 : ((auto.filter (fun p => decide (p.1 ∉ manual.map Prod.fst))).map
        autoLabel).count (manualLabel p) = 0 := by
      rw [List.count_eq_zero]
      intro hmem
      obtain ⟨q, hq, hEq⟩ := List.mem_map.mp hmem
      exact hdisj (hEq ▸ List.mem_map_of_mem manualLabel hp)
        (List.mem_map_of_mem autoLabel (List.mem_filter.mp hq).1)
    omega
  · intro p hp hpnotin
    rw [List.count_append]
    have h1 : (manual.map manualLabel).count (autoLabel p) = 0 := by
      rw [List.count_eq_zero]
      intro hmem
      exact hdisj hmem (List.mem_map_of_mem autoLabel hp)
    have hpf : p ∈ auto.filter (fun p => decide (p.1 ∉ manual.map Prod.fst)) :=
      List.mem_filter.mpr ⟨hp, by rw [decide_eq_true_eq]; exact hpnotin⟩
    have h2 : ((auto.filter (fun p => decide (p.1 ∉ manual.map Prod.fst))).map
        autoLabel).count (autoLabel p) = 1 :=
      List.count_eq_one_of_mem hfnodup (List.mem_map_of_mem autoLabel hpf)
    omega

/-- Witness for C2 at a concrete pair of track sets: manual `en`, `fr`;
auto-generated `en` (duplicate, suppressed) and `de` (kept). -/
theorem catalog_dedup_witness :
    ("English (en) [Auto-generated]"
        ∉ (buildSubs [("en", some "English"), ("fr", some "French")]
            [("en", some "English"), ("de", some "German")]).map Prod.fst) ∧
    (((buildSubs [("en", some "English"), ("fr", some "French")]
        [("en", some "English"), ("de", some "German")]).map Prod.fst).count
          "English (en)" = 1) ∧
    (((buildSubs [("en", some "English"), ("fr", some "French")]
        [("en", some "English"), ("de", some "German")]).map Prod.fst).count
          "German (de) [Auto-generated]" = 1) := by
  have h := catalog_dedup [("en", some "English"), ("fr", some "French")]
    [("en", some "English"), ("de", some "German")] (by decide) (by decide)
  exact ⟨h.1 ("en", some "English") (by decide) (by decide),
    h.2.1 ("en", some "English") (by decide),
    h.2.2 ("de", some "German") (by decide) (by decide)⟩

/-- Claim C4: exactly one produced file is delivered standalone under its
own name (MIME `text/plain`); two or more are delivered as a single
deflate-compressed archive named `"{sanitized title}_Subtitles.zip"`
(MIME `application/zip`) whose entries are the (name, bytes) pairs in
production order. -/
theorem deliver_rule (title : String) (pf : List (String × List Nat)) :
    (∀ name data, pf = [(name, data)] →
        deliver title pf = Delivery.standalone name data "text/plain") ∧
    (2 ≤ pf.length →
        deliver title pf
          = Delivery.archive (clean_filename title ++ "_Subtitles.zip")
              CompressionMethod.deflated pf "application/zip") := by
  constructor
  · intro name data hEq
    subst hEq
    rfl
  · intro hlen
    cases pf with
    | nil => exact absurd hlen (by simp)
    | cons a pf' =>
      cases pf' with
      | nil => exact absurd hlen (by simp)
      | cons b pf'' => rfl

/-- Witness for C4: one file delivered standalone; two files delivered as
the deflated archive named from the sanitized title (`"A/B"` → `"AB"`). -/
theorem deliver_rule_witness :
    deliver "A/B" [("x.srt", [1])] = Delivery.standalone "x.srt" [1] "text/plain" ∧
    deliver "A/B" [("x [en].srt", [1]), ("x [fr].srt", [2])]
      = Delivery.archive "AB_Subtitles.zip" CompressionMethod.deflated
          [("x [en].srt", [1]), ("x [fr].srt", [2])] "application/zip" := by
  constructor
  · exact (deliver_rule "A/B" [("x.srt", [1])]).1 "x.srt" [1] rfl
  · have h := (deliver_rule "A/B" [("x [en].srt", [1]), ("x [fr].srt", [2])]).2 (by decide)
    have hname : clean_filename "A/B" ++ "_Subtitles.zip" = "AB_Subtitles.zip" := by decide
    rw [← hname]
    exact h

/-- Claim C5: the timed-text stripper is idempotent on its own output —
for every input byte buffer, stripping the stripped bytes yields the same
bytes; moreover the decoded output contains no markup tag (tag removal
fixes it) and every one of its lines is kept by the line filter (non-empty,
not digits-only, no `-->`) and is its own `strip()` (so none is
whitespace-only). -/
theorem srt_to_text_idempotent (b : List Nat) :
    srt_to_text (srt_to_text b) = srt_to_text b ∧
    tagRemove (utf8DecodeIgnore (srt_to_text b)) = utf8DecodeIgnore (srt_to_text b) ∧
    ∀ l ∈ pySplitlines (utf8DecodeIgnore (srt_to_text b)),
      keepLine l = true ∧ pyStrip l = l := by
  have hd : utf8DecodeIgnore (srt_to_text b) = srtCore (utf8DecodeIgnore b) :=
    utf8_roundtrip _
  refine ⟨?_, ?_, ?_⟩
  · show utf8Encode (srtCore (utf8DecodeIgnore (srt_to_text b))) = _
    rw [hd, srtCore_idem]
    rfl
  · rw [hd]
    exact tagRemove_srtCore _
  · rw [hd]
    intro l hl
    rw [pySplitlines_srtCore] at hl
    exact ⟨(srtCore_lines _ l hl).1, (srtCore_lines _ l hl).2.1⟩

/-- Witness for C5 on a concrete SRT document. -/
theorem srt_to_text_idempotent_witness :
    srt_to_text (srt_to_text (utf8Encode
        ("1\n00:00 --> 00:01\n<i>Hi</i> there\n" : String).data))
      = srt_to_text (utf8Encode ("1\n00:00 --> 00:01\n<i>Hi</i> there\n" : String).data) ∧
    keepLine ("Hi there" : String).data = true ∧
    pyStrip ("Hi there" : String).data = ("Hi there" : String).data := by
  have h := srt_to_text_idempotent
    (utf8Encode ("1\n00:00 --> 00:01\n<i>Hi</i> there\n" : String).data)
  refine ⟨h.1, ?_, ?_⟩
  · exact (h.2.2 ("Hi there" : String).data (by decide)).1
  · exact (h.2.2 ("Hi there" : String).data (by decide)).2

/-- Claim C7 counterexample: the failure signal of `get_video_info` is the
bare `None` — two different underlying diagnostics produce the very same
value, so no caller-side function can recover the diagnostic message from
it; the claim that the failure signal carries the message is false. -/
theorem get_video_info_drops_diagnostic :
    get_video_info "https://youtu.be/x" (fun _ => Except.error "captions disabled") = none ∧
    ¬∃ recover : Option VideoInfo → String,
        ∀ msg : String,
          recover (get_video_info "https://youtu.be/x" (fun _ => Except.error msg)) = msg := by
  refine ⟨rfl, ?_⟩
  rintro ⟨recover, h⟩
  have h1 := h "captions disabled"
  have h2 := h "network error"
  rw [show get_video_info "https://youtu.be/x" (fun _ => Except.error "captions disabled")
      = none from rfl] at h1
  rw [show get_video_info "https://youtu.be/x" (fun _ => Except.error "network error")
      = none from rfl] at h2
  exact absurd (h1.symm.trans h2) (by decide)

/-- Claim C7 (amended): on a total query failure `get_video_info` returns
`None` — distinguishable by the caller from a successful query (which is
always `Some`, even with an empty catalog) — but the underlying diagnostic
message is discarded, not carried. -/
theorem get_video_info_failure_signal (u msg : String) (info : RawInfo) :
    get_video_info u (fun _ => Except.error msg) = none ∧
    get_video_info u (fun _ => Except.ok info) ≠ none := by
  exact ⟨rfl, fun h => Option.noConfusion h⟩

/-- Claim C8 counterexample: the URL embeds the 11-character token
`AAAAAAAAAAA` after `v=`, yet `get_video_info` reports the identifier the
metadata collaborator returned (`BBBBBBBBBBB`); no URL-side
pattern-matching is consulted, contradicting the claimed preference. -/
theorem url_token_not_preferred :
    specPreferredUrlToken "https://www.youtube.com/watch?v=AAAAAAAAAAA"
      = some "AAAAAAAAAAA" ∧
    Option.map VideoInfo.id
        (get_video_info "https://www.youtube.com/watch?v=AAAAAAAAAAA"
          (fun _ => Except.ok ⟨some "BBBBBBBBBBB", some "T", none, none, none, [], []⟩))
      = some (some "BBBBBBBBBBB") ∧
    (some "BBBBBBBBBBB" : Option String) ≠ some "AAAAAAAAAAA" := by
  exact ⟨by decide, rfl, by decide⟩

/-- Claim C8 (amended): the Caption Catalog Builder uses the identifier
reported by the metadata collaborator (`info.get('id')`) as the canonical
video identifier, whatever the URL contains; no URL-derived token is
extracted or preferred. -/
theorem get_video_info_uses_collaborator_id (url : String)
    (extract_info : String → Except String RawInfo) (info : RawInfo)
    (h : extract_info url = Except.ok info) :
    Option.map VideoInfo.id (get_video_info url extract_info) = some info.id := by
  simp [get_video_info, h]

/-- Witness for the amended C8. -/
theorem get_video_info_uses_collaborator_id_witness :
    Option.map VideoInfo.id
        (get_video_info "u" (fun _ => Except.ok ⟨some "X", none, none, none, none, [], []⟩))
      = some (some "X") :=
  get_video_info_uses_collaborator_id "u" _ _ rfl

/-- Claim C9: a fetch failure of one selected track (the collaborator
writes no file for it) skips only that track — every produced file is
still converted and included, one output per produced file — and the run
reports the total-failure diagnostic exactly when every selected track
failed; an empty selection never reaches the pipeline and produces no
diagnostic at all. -/
theorem pipeline_per_track_isolation (fc : FormatChoice) (sel : List String)
    (title : String) (outs : List (Option RawSubFile))
    (hsel : sel ≠ [])
    (hext : ∀ f ∈ outs.reduceOption, strEndsWith f.name (target_ext fc) = true) :
    gateRun fc sel title (Except.ok outs.reduceOption)
        = some (runPipeline fc sel title (Except.ok outs.reduceOption)) ∧
    (processFiles fc sel (clean_filename title) outs.reduceOption).length
        = outs.reduceOption.length ∧
    (runPipeline fc sel title (Except.ok outs.reduceOption)
        = RunOutcome.error totalFailureMsg ↔ ∀ o ∈ outs, o = none) ∧
    gateRun fc [] title (Except.ok outs.reduceOption) = none := by
  have hfilter : outs.reduceOption.filter (fun f => strEndsWith f.name (target_ext fc))
      = outs.reduceOption := List.filter_eq_self.mpr hext
  have hlen : (processFiles fc sel (clean_filename title) outs.reduceOption).length
      = outs.reduceOption.length := by
    show ((outs.reduceOption.filter _).map _).length = _
    rw [List.length_map, hfilter]
  refine ⟨?_, hlen, ?_, rfl⟩
  · show (if sel.isEmpty = true then none else some _) = _
    rw [if_neg (fun h => hsel (List.isEmpty_iff.mp h))]
  · constructor
    · intro herr
      by_cases hemp :
          (processFiles fc sel (clean_filename title) outs.reduceOption).isEmpty = true
      · have hpn := List.isEmpty_iff.mp hemp
        rw [hpn] at hlen
        have hnil : outs.reduceOption = [] := List.length_eq_zero.mp hlen.symm
        exact (reduceOption_nil_iff outs).mp hnil
      · exfalso
        have hsucc : runPipeline fc sel title (Except.ok outs.reduceOption)
            = RunOutcome.success
                (processFiles fc sel (clean_filename title) outs.reduceOption) := by
          show (if (processFiles fc sel (clean_filename title)
              outs.reduceOption).isEmpty = true then _ else _) = _
          rw [if_neg hemp]
        rw [hsucc] at herr
        exact RunOutcome.noConfusion herr
    · intro hall
      have hnil : outs.reduceOption = [] := (reduceOption_nil_iff outs).mpr hall
      show (if (processFiles fc sel (clean_filename title)
          outs.reduceOption).isEmpty = true then _ else _) = _
      rw [hnil]
      rfl

/-- Witness for C9: two languages selected, the second track's fetch
failed; the run still produces the first track's file and does not report
total failure. -/
theorem pipeline_per_track_isolation_witness :
    (processFiles FormatChoice.srt ["English (en)", "French (fr)"] (clean_filename "T")
        [RawSubFile.mk "v.en.srt" [104]]).length = 1 ∧
    runPipeline FormatChoice.srt ["English (en)", "French (fr)"] "T"
        (Except.ok [RawSubFile.mk "v.en.srt" [104]]) ≠ RunOutcome.error totalFailureMsg := by
  have h := pipeline_per_track_isolation FormatChoice.srt ["English (en)", "French (fr)"]
    "T" [some (RawSubFile.mk "v.en.srt" [104]), none] (by decide) (by decide)
  refine ⟨h.2.1, ?_⟩
  intro herr
  exact Option.noConfusion
    ((h.2.2.1.mp herr) (some (RawSubFile.mk "v.en.srt" [104])) (by decide))

/-- Claim C10: when a produced file's on-disk name has fewer than three
dot-separated parts, no language code can be read from the
`{id}.{lang}.{ext}` shape and the literal `"sub"` is used instead, so in a
multi-language run several such files receive identical final names. -/
theorem lang_code_fallback :
    (∀ file : String,
      ((splitOnDot file.data).map (fun l => String.mk l)).length < 3 →
      lang_code_of file = "sub") ∧
    (∀ (fc : FormatChoice) (sel : List String) (t : String) (f1 f2 : String),
      ((splitOnDot f1.data).map (fun l => String.mk l)).length < 3 →
      ((splitOnDot f2.data).map (fun l => String.mk l)).length < 3 →
      finalName fc sel t f1 = finalName fc sel t f2) := by
  have hbase : ∀ file : String,
      ((splitOnDot file.data).map (fun l => String.mk l)).length < 3 →
      lang_code_of file = "sub" := by
    intro file hlt
    show (if _ then _ else _) = _
    rw [if_neg (by omega)]
  refine ⟨hbase, ?_⟩
  intro fc sel t f1 f2 h1 h2
  show (if sel.length = 1 then _ else _) = (if sel.length = 1 then _ else _)
  by_cases hone : sel.length = 1
  · rw [if_pos hone, if_pos hone]
  · rw [if_neg hone, if_neg hone, hbase f1 h1, hbase f2 h2]

/-- Witness for C10: `"subtitle.srt"` has two parts, gets code `"sub"`,
and collides with `"other.srt"` in a two-language run. -/
theorem lang_code_fallback_witness :
    lang_code_of "subtitle.srt" = "sub" ∧
    finalName FormatChoice.srt ["a", "b"] "T" "subtitle.srt"
      = finalName FormatChoice.srt ["a", "b"] "T" "other.srt" := by
  exact ⟨lang_code_fallback.1 "subtitle.srt" (by decide),
    lang_code_fallback.2 FormatChoice.srt ["a", "b"] "T" "subtitle.srt" "other.srt"
      (by decide) (by decide)⟩

/-- Witness for the amended C7 at concrete inputs. -/
theorem get_video_info_failure_signal_witness :
    get_video_info "https://youtu.be/x" (fun _ => Except.error "captions disabled") = none ∧
    get_video_info "https://youtu.be/x"
        (fun _ => Except.ok ⟨none, none, none, none, none, [], []⟩) ≠ none := by
  exact get_video_info_failure_signal "https://youtu.be/x" "captions disabled"
    ⟨none, none, none, none, none, [], []⟩
